import Mathlib

/-!
Shallow embedding of the HashAndTrie keyword-index repository (src/ED2).

Words are modelled as byte lists (`List ℕ`, one element per `char`, values
0..255; a C string can never contain the byte 0, captured by `ValidWord`).
Positions are `ℤ` (C `int`).  Machine arithmetic of the 32-bit FNV-1a hash
is modelled with explicit `% 2^32`.  Allocation is assumed to succeed
(the C code either aborts the process or returns early on allocation
failure); `realloc` growth of occurrence arrays is likewise assumed to
succeed, so the capacity fields (`max_occurrences`) are not represented.
-/

namespace HashAndTrie

/-! ### Byte-level primitives (ctype.h / strings.h as used by the code) -/

/-- Model of glibc `tolower` on a byte in the C locale: maps `A`..`Z` to
`a`..`z` and leaves every other value (including bytes ≥ 128) unchanged. -/
def tolowerByte (b : ℕ) : ℕ := if 65 ≤ b ∧ b ≤ 90 then b + 32 else b

/-- Case folding of a whole word, byte by byte. -/
def foldw (w : List ℕ) : List ℕ := w.map tolowerByte

/-- A byte list that is representable as a C string: no NUL byte, every
byte below 256. -/
def ValidWord (w : List ℕ) : Prop := ∀ b ∈ w, 0 < b ∧ b < 256

instance (w : List ℕ) : Decidable (ValidWord w) := by
  unfold ValidWord; infer_instance

/-- Model of `strcasecmp`: walk both strings, comparing `tolower`-folded
bytes; at the first difference (the terminating NUL counts as byte 0)
return the signed difference. -/
def strcasecmp : List ℕ → List ℕ → ℤ
  | [], [] => 0
  | [], b :: _ => 0 - (tolowerByte b : ℤ)
  | a :: _, [] => (tolowerByte a : ℤ)
  | a :: as, b :: bs =>
    if tolowerByte a = tolowerByte b then strcasecmp as bs
    else (tolowerByte a : ℤ) - (tolowerByte b : ℤ)

/-- C-locale `isalnum` on a byte. -/
def isalnumByte (b : ℕ) : Bool :=
  decide ((48 ≤ b ∧ b ≤ 57) ∨ (65 ≤ b ∧ b ≤ 90) ∨ (97 ≤ b ∧ b ≤ 122))

/-! ### Hash table (src/ED2/hash.c) -/

/-- One occupied slot of the table: the stored word (as `strdup`ped, i.e.
with original casing) and its occurrence array.  `num_occurrences` is the
length of `occ`; the capacity field is not modelled. -/
structure HEntry where
  word : List ℕ
  occ : List ℤ
deriving DecidableEq

/-- `HashTable`: slot array (`none` = empty slot, i.e. `word == NULL`),
its capacity `size` and the occupied-slot count `entries`. -/
structure HashTable where
  size : ℕ
  table : List (Option HEntry)
  entries : ℕ
deriving DecidableEq

/-- `hash_create(size)`: `size` empty slots, zero entries. -/
def hash_create (n : ℕ) : HashTable := ⟨n, List.replicate n none, 0⟩

/-- The value the C code xors into the 32-bit FNV state for one byte:
`hash ^= tolower(*word)` where `*word` is a signed `char`.  For bytes
≥ 128 the `char` is negative, glibc `tolower` returns it unchanged, and
the conversion back to `unsigned int` sign-extends, yielding
`2^32 - 256 + b`. -/
def fnvXorByte (b : ℕ) : ℕ := if b < 128 then tolowerByte b else 4294967040 + b

/-- `hash_function`: 32-bit FNV-1a over the lowercased bytes
(offset basis 2166136261, prime 16777619, wraparound `% 2^32`),
reduced `% size`. -/
def hash_function (w : List ℕ) (size : ℕ) : ℕ :=
  (w.foldl (fun h b => (Nat.xor h (fnvXorByte b) * 16777619) % 4294967296)
      2166136261) % size

/-- Outcome of the linear-probe loop shared by `hash_insert` and
`hash_search`: a slot whose word matches case-insensitively, the first
empty slot, or a full wrap back to the initial index. -/
inductive ProbeResult where
  | found : ℕ → ProbeResult
  | emptyAt : ℕ → ProbeResult
  | full : ProbeResult
deriving DecidableEq

/-- The probe loop of `hash_insert`/`hash_search`: starting at index `i`,
advance by `(i+1) % size` while the slot is occupied by a non-matching
word; report a match, the first empty slot, or `full` once `size` slots
have been examined (the C loop fails when the index wraps back to the
initial index). -/
def probeAux (t : List (Option HEntry)) (size : ℕ) (w : List ℕ) :
    ℕ → ℕ → ProbeResult
  | 0, _ => .full
  | fuel + 1, i =>
    match t.get? i with
    | some none => .emptyAt i
    | some (some e) =>
      if strcasecmp e.word w = 0 then .found i
      else probeAux t size w fuel ((i + 1) % size)
    | none => .full

/-- The shift-and-insert of `hash_insert` (lines 190-197) keeps the
occurrence array ordered by walking from the back: elements greater than
`position` are shifted right and `position` is placed after the last
element that is `≤` it.  `insert_pos_rev` performs this walk on the
reversed list. -/
def insert_pos_rev (p : ℤ) : List ℤ → List ℤ
  | [] => [p]
  | q :: qs => if q > p then q :: insert_pos_rev p qs else p :: q :: qs

/-- Ordered insert into an occurrence array, as performed in place by
`hash_insert`. -/
def insert_pos (l : List ℤ) (p : ℤ) : List ℤ := (insert_pos_rev p l.reverse).reverse

/-- Occurrence-list update of `hash_insert` on a matching slot: skip the
position if it is already present, otherwise ordered insert. -/
def updateEntryOcc (e : HEntry) (p : ℤ) : HEntry :=
  if p ∈ e.occ then e else ⟨e.word, insert_pos e.occ p⟩

/-- The body of `hash_insert` after the resize check: probe from the hash
index; on a case-insensitive match update that entry's occurrences, on an
empty slot create a fresh entry (occurrence list `[p]`) and bump
`entries`, and on a full wrap report failure and leave the table
unchanged. -/
def hash_insert_core (ht : HashTable) (w : List ℕ) (p : ℤ) : HashTable :=
  match probeAux ht.table ht.size w ht.size (hash_function w ht.size) with
  | .found i =>
    match ht.table.get? i with
    | some (some e) => ⟨ht.size, ht.table.set i (some (updateEntryOcc e p)), ht.entries⟩
    | _ => ht
  | .emptyAt i => ⟨ht.size, ht.table.set i (some ⟨w, [p]⟩), ht.entries + 1⟩
  | .full => ht

/-- The reinsertion probe of `hash_resize` (lines 97-110): advance while
the slot is occupied (no match test), fail after a full wrap. -/
def probeEmptyAux (t : List (Option HEntry)) (size : ℕ) : ℕ → ℕ → Option ℕ
  | 0, _ => none
  | fuel + 1, i =>
    match t.get? i with
    | some none => some i
    | some (some _) => probeEmptyAux t size fuel ((i + 1) % size)
    | none => none

/-- `hash_resize`: new capacity `2*size + 1`; every occupied slot of the
old table (in slot order) is re-placed into the fresh table by linear
probing for an empty slot; if any probe wraps, the whole resize fails
(`none`).  `entries` is carried over unchanged.  The `calloc` failure
path (which the model does not represent) also returns failure before
touching the live table. -/
def hash_resize (ht : HashTable) : Option HashTable :=
  let ns := ht.size * 2 + 1
  ((ht.table.filterMap id).foldl
      (fun acc e => acc.bind fun t =>
        (probeEmptyAux t ns ns (hash_function e.word ns)).map fun j => t.set j (some e))
      (some (List.replicate ns none))).map
    fun t => ⟨ns, t, ht.entries⟩

/-- The load-factor test `ht->entries > ht->size * 0.7` of `hash_insert`.
`0.7` is an IEEE-754 double, exactly `6305039478318694 / 2^53`; the test
is modelled as the exact rational comparison
`entries > size * 6305039478318694 / 2^53` (the rounding of the C
product `size * 0.7` to a double is not modelled). -/
def resizeTrigger (entries size : ℕ) : Bool :=
  decide (9007199254740992 * entries > 6305039478318694 * size)

/-- `hash_insert`: resize first when the load factor test fires (abandon
the insertion if the resize fails), then run the probe-and-insert body. -/
def hash_insert (ht : HashTable) (w : List ℕ) (p : ℤ) : HashTable :=
  if resizeTrigger ht.entries ht.size then
    match hash_resize ht with
    | none => ht
    | some ht2 => hash_insert_core ht2 w p
  else hash_insert_core ht w p

/-- `hash_search`: same probe sequence as `hash_insert`; returns the
occurrence list of a case-insensitively matching slot, or not-found on an
empty slot or a full wrap. -/
def hash_search (ht : HashTable) (w : List ℕ) : Option (List ℤ) :=
  match probeAux ht.table ht.size w ht.size (hash_function w ht.size) with
  | .found i =>
    match ht.table.get? i with
    | some (some e) => some e.occ
    | _ => none
  | _ => none

/-- A table obtained from `hash_create n` by a sequence of `hash_insert`
calls. -/
def hashBuild (n : ℕ) (ops : List (List ℕ × ℤ)) : HashTable :=
  ops.foldl (fun h wp => hash_insert h wp.1 wp.2) (hash_create n)

/-- `criar_indice_hash`: fresh main table of capacity
`max (2*num_keywords) INITIAL_HASH_SIZE` (`INITIAL_HASH_SIZE = 1023`);
an auxiliary table of capacity `2*num_keywords` holds the non-empty
keywords (inserted at position `-1`); every non-empty corpus word found
in the auxiliary table has all of its recorded positions inserted into
the main table.  The corpus position lists model the C arrays whose
leading element is the count (`posicoes[i][0]`) followed by that many
values. -/
def criar_indice_hash (palavras : List (List ℕ)) (posicoes : List (List ℤ))
    (keywords : List (List ℕ)) : HashTable :=
  let initial_size := max (keywords.length * 2) 1023
  let keyword_ht := keywords.foldl
    (fun kh k => if k ≠ [] then hash_insert kh k (-1) else kh)
    (hash_create (keywords.length * 2))
  (palavras.zip posicoes).foldl
    (fun h wp =>
      if wp.1 ≠ [] ∧ (hash_search keyword_ht wp.1).isSome = true then
        wp.2.foldl (fun h2 p => hash_insert h2 wp.1 p) h
      else h)
    (hash_create initial_size)

/-! ### Trie (src/ED2/trie.c) -/

/-- A trie node: 27 children (indices 0-25 for normalized letters, 26 for
the hyphen), end-of-word flag, occurrence array, the original surface
word (set once), and the raw UTF-8 bytes that created the node. -/
inductive TrieNode where
  | mk : (Fin 27 → Option TrieNode) → Bool → List ℤ → Option (List ℕ) →
      Option (List ℕ) → TrieNode

def TrieNode.children : TrieNode → Fin 27 → Option TrieNode
  | .mk c _ _ _ _ => c

def TrieNode.is_end_of_word : TrieNode → Bool
  | .mk _ e _ _ _ => e

def TrieNode.occurrences : TrieNode → List ℤ
  | .mk _ _ o _ _ => o

def TrieNode.original_word : TrieNode → Option (List ℕ)
  | .mk _ _ _ w _ => w

def TrieNode.stored_utf8 : TrieNode → Option (List ℕ)
  | .mk _ _ _ _ s => s

/-- `trie_create_node`: all children null, not end of word, empty
occurrence list, no original word, no stored UTF-8 bytes. -/
def trie_create_node : TrieNode := .mk (fun _ => none) false [] none none

/-- A child node freshly created during `trie_insert`, which immediately
stores the raw UTF-8 character bytes. -/
def newChildNode (c : List ℕ) : TrieNode := .mk (fun _ => none) false [] none (some c)

def TrieNode.child (t : TrieNode) (i : Fin 27) : Option TrieNode := t.children i

def TrieNode.setChild (t : TrieNode) (i : Fin 27) (x : Option TrieNode) : TrieNode :=
  .mk (Function.update t.children i x) t.is_end_of_word t.occurrences
    t.original_word t.stored_utf8

/-- `get_next_utf8_char`: byte width of the character led by byte `b`
(defaulting to 1 for continuation bytes and bytes ≥ 0xF8). -/
def utf8CharLen (b : ℕ) : ℕ :=
  if b &&& 128 = 0 then 1
  else if b &&& 224 = 192 then 2
  else if b &&& 240 = 224 then 3
  else if b &&& 248 = 240 then 4
  else 1

/-- `normalize_utf8_char` on the extracted character bytes: the explicit
0xC3-lead table maps the handled accented letters to their unaccented
lowercase base byte; a hyphen maps to itself; everything else goes
through `tolower` of the lead byte (bytes ≥ 128 come back unchanged).
A missing second byte reads as the terminating NUL, byte 0. -/
def normalize_utf8_char (c : List ℕ) : ℕ :=
  match c with
  | [] => 0
  | c0 :: rest =>
    let c1 := rest.headD 0
    if c0 = 195 then
      if c1 = 135 ∨ c1 = 167 then 99
      else if c1 = 131 ∨ c1 = 163 then 97
      else if c1 = 149 ∨ c1 = 181 then 111
      else if c1 = 129 ∨ c1 = 161 then 97
      else if c1 = 137 ∨ c1 = 169 then 101
      else if c1 = 141 ∨ c1 = 173 then 105
      else if c1 = 147 ∨ c1 = 179 then 111
      else if c1 = 154 ∨ c1 = 186 then 117
      else if c1 = 156 ∨ c1 = 188 then 117
      else tolowerByte c0
    else if c0 = 45 then 45
    else tolowerByte c0

/-- The child-index logic of `trie_insert`/`trie_search`: hyphen goes to
slot 26, normalized `a`..`z` to slots 0-25, anything else is skipped
(`none`).  A normalized byte ≥ 128 is a negative `char` in C and fails
both range tests. -/
def char_index (c : List ℕ) : Option (Fin 27) :=
  let n := normalize_utf8_char c
  if n = 45 then some 26
  else if h : 97 ≤ n ∧ n ≤ 122 then some ⟨n - 97, by omega⟩
  else none

/-- The normalized path of a word: the sequence of accepted child
indices, paired with the raw character bytes that produced each step.
The fuel argument (instantiated with the byte length) makes the
multi-byte stepping structurally recursive. -/
def pathOfF : ℕ → List ℕ → List (Fin 27 × List ℕ)
  | 0, _ => []
  | _ + 1, [] => []
  | f + 1, b :: bs =>
    let len := utf8CharLen b
    let c := b :: bs.take (len - 1)
    let rest := bs.drop (len - 1)
    match char_index c with
    | none => pathOfF f rest
    | some i => (i, c) :: pathOfF f rest

def pathOf (w : List ℕ) : List (Fin 27 × List ℕ) := pathOfF w.length w

/-- The child indices of the normalized path (what addresses nodes). -/
def idxPath (w : List ℕ) : List (Fin 27) := (pathOf w).map Prod.fst

/-- The end-of-word update of `trie_insert` (lines 183-207): set the
flag, store the original word if no original is stored yet (first
insertion wins), and append the position to the occurrence array. -/
def finishNode (t : TrieNode) (orig : List ℕ) (p : ℤ) : TrieNode :=
  .mk t.children true (t.occurrences ++ [p])
    (match t.original_word with
     | some o => some o
     | none => some orig) t.stored_utf8

/-- The walk of `trie_insert`: decode one UTF-8 character at a time,
skip characters with no child index, create missing children (storing
the raw bytes), and at the end of the word finish the current node -
but only if at least one step was taken (`current != root`). -/
def trie_insert_goF : ℕ → TrieNode → List ℕ → List ℕ → ℤ → Bool → TrieNode
  | _, t, [], orig, p, moved => if moved then finishNode t orig p else t
  | 0, t, _ :: _, _, _, _ => t
  | f + 1, t, b :: bs, orig, p, moved =>
    let len := utf8CharLen b
    let c := b :: bs.take (len - 1)
    let rest := bs.drop (len - 1)
    match char_index c with
    | none => trie_insert_goF f t rest orig p moved
    | some i =>
      let child := match t.child i with
                   | some ch => ch
                   | none => newChildNode c
      t.setChild i (some (trie_insert_goF f child rest orig p true))

/-- `trie_insert`: rejects negative positions outright; the original
word recorded at the terminal node is truncated to `MAX_WORD_SIZE - 1 =
99` bytes by `strncpy`. -/
def trie_insert (t : TrieNode) (w : List ℕ) (p : ℤ) : TrieNode :=
  if p < 0 then t else trie_insert_goF w.length t w (w.take 99) p false

/-- The walk of `trie_search`: decode and skip exactly like the insert
walk, fail on a missing child, and at the end return the occurrence
list iff the final node is an end of word. -/
def trie_search_goF : ℕ → TrieNode → List ℕ → Option (List ℤ)
  | _, t, [] => if t.is_end_of_word then some t.occurrences else none
  | 0, _, _ :: _ => none
  | f + 1, t, b :: bs =>
    let len := utf8CharLen b
    let c := b :: bs.take (len - 1)
    let rest := bs.drop (len - 1)
    match char_index c with
    | none => trie_search_goF f t rest
    | some i =>
      match t.child i with
      | none => none
      | some ch => trie_search_goF f ch rest

def trie_search (t : TrieNode) (w : List ℕ) : Option (List ℤ) :=
  trie_search_goF w.length t w

/-- Node lookup along a path of child indices. -/
def nodeAt : TrieNode → List (Fin 27) → Option TrieNode
  | t, [] => some t
  | t, i :: is =>
    match t.child i with
    | none => none
    | some ch => nodeAt ch is

def occAt (t : TrieNode) (P : List (Fin 27)) : List ℤ :=
  match nodeAt t P with
  | some nd => nd.occurrences
  | none => []

def endAt (t : TrieNode) (P : List (Fin 27)) : Bool :=
  match nodeAt t P with
  | some nd => nd.is_end_of_word
  | none => false

def origAt (t : TrieNode) (P : List (Fin 27)) : Option (List ℕ) :=
  match nodeAt t P with
  | some nd => nd.original_word
  | none => none

/-- What `trie_search` computes, expressed over the node addressed by a
path: the occurrence list when that node exists and is an end of word. -/
def lookNode (t : TrieNode) (P : List (Fin 27)) : Option (List ℤ) :=
  match nodeAt t P with
  | some nd => if nd.is_end_of_word then some nd.occurrences else none
  | none => none

/-- The insert walk re-expressed over the already-computed normalized
path (child index plus raw character bytes per step); used to relate
`trie_insert` to `nodeAt`. -/
def insertPathGo : TrieNode → List (Fin 27 × List ℕ) → List ℕ → ℤ → Bool → TrieNode
  | t, [], orig, p, moved => if moved then finishNode t orig p else t
  | t, (i, c) :: P, orig, p, _ =>
    let child := match t.child i with
                 | some ch => ch
                 | none => newChildNode c
    t.setChild i (some (insertPathGo child P orig p true))

/-- A trie obtained from a fresh root by a sequence of `trie_insert`
calls. -/
def trieBuild (ops : List (List ℕ × ℤ)) : TrieNode :=
  ops.foldl (fun t wp => trie_insert t wp.1 wp.2) trie_create_node

/-- The positions that a sequence of `trie_insert` calls deposits at the
node addressed by path `P`: the positions of the accepted (non-negative)
insertions whose word normalizes to `P`, in call order. -/
def selPositions (P : List (Fin 27)) (ops : List (List ℕ × ℤ)) : List ℤ :=
  (ops.filter fun wp => decide (idxPath wp.1 = P ∧ 0 ≤ wp.2)).map Prod.snd

/-- `should_include_word`: every non-empty word is included. -/
def should_include_word (w : List ℕ) : Bool := decide (0 < w.length)

/-- `is_stopword`: no word is a stopword. -/
def is_stopword (_ : List ℕ) : Bool := false

/-! ### Corpus build of the trie (`sort` + binary search, trie.c) -/

/-- One step of `sort_palavras_com_posicoes`' insertion sort: scan the
sorted list and place the element before the first entry that compares
greater (case-insensitively), i.e. after all entries that compare
less-or-equal - the placement the C code reaches by shifting from the
right. -/
def insSortedEntry (key : List ℕ × List ℤ) :
    List (List ℕ × List ℤ) → List (List ℕ × List ℤ)
  | [] => [key]
  | x :: xs =>
    if strcasecmp x.1 key.1 > 0 then key :: x :: xs
    else x :: insSortedEntry key xs

/-- `sort_palavras_com_posicoes`: stable insertion sort of the corpus
`(word, positions)` pairs by case-insensitive word order. -/
def sort_palavras_com_posicoes (l : List (List ℕ × List ℤ)) :
    List (List ℕ × List ℤ) :=
  l.foldl (fun acc x => insSortedEntry x acc) []

/-- The loop of `binary_search_word`, with fuel (the interval shrinks
every iteration, so `length + 1` rounds always suffice). -/
def bsF (ps : List (List ℕ)) (w : List ℕ) : ℕ → ℤ → ℤ → ℤ
  | 0, _, _ => -1
  | f + 1, left, right =>
    if left ≤ right then
      let mid := left + (right - left) / 2
      let c := strcasecmp (ps.getD mid.toNat []) w
      if c = 0 then mid
      else if c < 0 then bsF ps w f (mid + 1) right
      else bsF ps w f left (mid - 1)
    else -1

/-- `binary_search_word`: case-insensitive binary search over a sorted
word array; `-1` if absent. -/
def binary_search_word (ps : List (List ℕ)) (w : List ℕ) : ℤ :=
  bsF ps w (ps.length + 1) 0 ((ps.length : ℤ) - 1)

/-- `criar_indice_trie`: fresh root; sort the corpus pairs
case-insensitively; for each keyword, binary-search the sorted corpus
and, when found, insert every recorded position keyed by the keyword's
own spelling. -/
def criar_indice_trie (palavras : List (List ℕ)) (posicoes : List (List ℤ))
    (keywords : List (List ℕ)) : TrieNode :=
  let sorted := sort_palavras_com_posicoes (palavras.zip posicoes)
  keywords.foldl
    (fun root kw =>
      let j := binary_search_word (sorted.map Prod.fst) kw
      if 0 ≤ j then
        ((sorted.getD j.toNat ([], [])).2).foldl (fun r p => trie_insert r kw p) root
      else root)
    trie_create_node

/-! ### Tokenizers (trie.c `tokenize_text`, util.c `processar_texto`) -/

/-- Word character of `tokenize_text`: alphanumeric, hyphen, or any byte
above 127. -/
def isWordChar (b : ℕ) : Bool := isalnumByte b || b == 45 || decide (127 < b)

/-- The scanning loop of `tokenize_text`: accumulate maximal runs of
word characters; each emitted token carries the current position
counter, which starts at 1 and increments once per emitted token. -/
def tokenize_go : List ℕ → List ℕ → ℕ → List (List ℕ × ℕ)
  | [], cur, pos => if cur.isEmpty then [] else [(cur, pos)]
  | c :: rest, cur, pos =>
    if isWordChar c then tokenize_go rest (cur ++ [c]) pos
    else if cur.isEmpty then tokenize_go rest [] pos
    else (cur, pos) :: tokenize_go rest [] (pos + 1)

/-- `tokenize_text` over the text bytes: the list of (token, position)
pairs (each C `posicoes[i]` is `[1, pos]`, i.e. a one-element position
list). -/
def tokenize_text (text : List ℕ) : List (List ℕ × ℕ) := tokenize_go text [] 1

/-- The delimiter set of `processar_texto`'s `strtok_r` call:
space, tab, newline, carriage return, form feed, vertical tab, and
`. , ; : ! ? " ' ( ) [ ] { }` and the hyphen. -/
def strtokDelims : List ℕ :=
  [32, 9, 10, 13, 12, 11, 46, 44, 59, 58, 33, 63, 34, 39, 40, 41, 91, 93, 123, 125, 45]

def isDelim (b : ℕ) : Bool := strtokDelims.contains b

/-- `strtok_r` tokenization: maximal runs of non-delimiter bytes. -/
def strtok_split_go : List ℕ → List ℕ → List (List ℕ)
  | [], cur => if cur.isEmpty then [] else [cur]
  | c :: rest, cur =>
    if isDelim c then
      if cur.isEmpty then strtok_split_go rest []
      else cur :: strtok_split_go rest []
    else strtok_split_go rest (cur ++ [c])

def strtok_split (text : List ℕ) : List (List ℕ) := strtok_split_go text []

/-- `processar_texto`: tokenize with `strtok_r`, lowercase every token,
then for every token `i` record - by the O(n²) double loop - the list of
all indices `j` (0-based, in ascending order) whose lowercased token
equals token `i`.  The fixed-capacity caps (`MAX_TEXT_SIZE`) of the C
arrays are not modelled. -/
def processar_texto (text : List ℕ) : List (List ℕ) × List (List ℤ) :=
  let ws := (strtok_split text).map fun t => t.map tolowerByte
  let n := ws.length
  (ws, ws.map fun wi =>
    (List.range n).foldl
      (fun acc j => if ws.getD j [] = wi then acc ++ [(j : ℤ)] else acc) [])

/-! ### Verification-level definitions for the hash table -/

/-- Number of occupied slots of a slot array. -/
def occupiedCount (t : List (Option HEntry)) : ℕ := (t.filterMap id).length

/-- Number of forward probe steps from index `s` to index `j` (mod
`size`). -/
def dist (size s j : ℕ) : ℕ := (j + size - s) % size

/-- Slot `i` is occupied. -/
def occSlot (t : List (Option HEntry)) (i : ℕ) : Prop :=
  ∃ e, t.get? i = some (some e)

/-- The probe loop of insert/search stops at slot `i`: the slot is empty
or its word matches case-insensitively. -/
def slotStopB (t : List (Option HEntry)) (w : List ℕ) (i : ℕ) : Bool :=
  match t.get? i with
  | some none => true
  | some (some e) => decide (strcasecmp e.word w = 0)
  | none => false

def slotStop (t : List (Option HEntry)) (w : List ℕ) (i : ℕ) : Prop :=
  slotStopB t w i = true

instance (t : List (Option HEntry)) (w : List ℕ) (i : ℕ) :
    Decidable (slotStop t w i) := by
  unfold slotStop; infer_instance

/-- Well-formedness of a slot array of capacity `size`: correct length,
positive capacity, stored words valid, occurrence lists strictly
ascending, stored words pairwise distinct up to case folding, and every
occupied slot reachable from its hash index through occupied slots (the
fundamental open-addressing invariant). -/
structure TWF (t : List (Option HEntry)) (size : ℕ) : Prop where
  hlen : t.length = size
  hpos : 0 < size
  hvalid : ∀ e ∈ t.filterMap id, ValidWord e.word
  hsorted : ∀ e ∈ t.filterMap id, List.Chain' (· < ·) e.occ
  hdistinct : (t.filterMap id).Pairwise (fun a b => foldw a.word ≠ foldw b.word)
  hpath : ∀ j e, t.get? j = some (some e) →
    ∀ dd, dd < dist size (hash_function e.word size) j →
      occSlot t ((hash_function e.word size + dd) % size)

/-- Well-formedness of a hash table: well-formed slot array and accurate
`entries` counter. -/
def WF (ht : HashTable) : Prop :=
  TWF ht.table ht.size ∧ ht.entries = occupiedCount ht.table

/-- Association-list lookup keyed by case-folded word. -/
def alookup (f : List ℕ) : List (List ℕ × List ℤ) → Option (List ℤ)
  | [] => none
  | (g, l) :: m => if g = f then some l else alookup f m

/-- Abstract counterpart of one `hash_insert`: update the folded key's
occurrence list exactly as the table does (skip duplicates, ordered
insert), appending a fresh singleton binding for an unseen key. -/
def aupdate (f : List ℕ) (p : ℤ) : List (List ℕ × List ℤ) → List (List ℕ × List ℤ)
  | [] => [(f, [p])]
  | (g, l) :: m =>
    if g = f then (g, if p ∈ l then l else insert_pos l p) :: m
    else (g, l) :: aupdate f p m

/-- Abstract model of a whole insertion sequence. -/
def mBuild (ops : List (List ℕ × ℤ)) : List (List ℕ × List ℤ) :=
  ops.foldl (fun m wp => aupdate (foldw wp.1) wp.2 m) []

/-- Refinement relation between a concrete table and the abstract
association list: the occupied slots and the abstract bindings are in
exact correspondence (keyed by folded word, value the occurrence
list). -/
def Abs (ht : HashTable) (m : List (List ℕ × List ℤ)) : Prop :=
  (∀ e ∈ ht.table.filterMap id, alookup (foldw e.word) m = some e.occ) ∧
  (∀ f l, alookup f m = some l →
    ∃ e ∈ ht.table.filterMap id, foldw e.word = f ∧ e.occ = l)

/-! ### Concrete sample data used in witness and example theorems -/

/-- Bytes of "cat". -/
def w_cat : List ℕ := [99, 97, 116]

/-- Bytes of "the". -/
def w_the : List ℕ := [116, 104, 101]

/-- Bytes of "sat". -/
def w_sat : List ℕ := [115, 97, 116]

/-- Bytes of "on". -/
def w_on : List ℕ := [111, 110]

/-- Bytes of "mat". -/
def w_mat : List ℕ := [109, 97, 116]

/-- Bytes of "dog". -/
def w_dog : List ℕ := [100, 111, 103]

/-- UTF-8 bytes of "café". -/
def w_cafe : List ℕ := [99, 97, 102, 195, 169]

/-- Bytes of "CAFE". -/
def w_CAFE : List ℕ := [67, 65, 70, 69]

/-- UTF-8 bytes of "CAFÉ". -/
def w_CAFEacc : List ℕ := [67, 65, 70, 195, 137]

/-- Bytes of "guarda-chuva" (hyphen = byte 45). -/
def w_guardachuva : List ℕ := [103, 117, 97, 114, 100, 97, 45, 99, 104, 117, 118, 97]

/-- Bytes of the all-digit token "2024". -/
def w_year : List ℕ := [50, 48, 50, 52]

/-- UTF-8 bytes of "à". -/
def w_agrave : List ℕ := [195, 160]

/-- Bytes of the sample text "the cat sat on the mat". -/
def sampleText : List ℕ :=
  [116, 104, 101, 32, 99, 97, 116, 32, 115, 97, 116, 32, 111, 110, 32,
   116, 104, 101, 32, 109, 97, 116]

/-- The example corpus ["the", "cat", "sat", "on", "the", "mat"]. -/
def corpusWords : List (List ℕ) := [w_the, w_cat, w_sat, w_on, w_the, w_mat]

/-- The example corpus position lists (1-based, ascending, one list per
corpus word). -/
def corpusPositions : List (List ℤ) := [[1, 5], [2], [3], [4], [1, 5], [6]]

/-- The example keywords ["the", "dog"]. -/
def corpusKeywords : List (List ℕ) := [w_the, w_dog]

/-! ### Byte-level lemmas -/

theorem tolowerByte_idem (b : ℕ) : tolowerByte (tolowerByte b) = tolowerByte b := by
  unfold tolowerByte
  by_cases h : 65 ≤ b ∧ b ≤ 90
  · rw [if_pos h, if_neg (by omega)]
  · rw [if_neg h, if_neg h]

theorem tolowerByte_ne_zero {b : ℕ} (h : b ≠ 0) : tolowerByte b ≠ 0 := by
  unfold tolowerByte
  split <;> omega

theorem foldw_nil : foldw [] = [] := rfl

theorem foldw_cons (b : ℕ) (w : List ℕ) :
    foldw (b :: w) = tolowerByte b :: foldw w := rfl

theorem validWord_cons {b : ℕ} {w : List ℕ} (h : ValidWord (b :: w)) :
    (0 < b ∧ b < 256) ∧ ValidWord w := by
  refine ⟨h b (List.mem_cons_self b w), fun x hx => h x (List.mem_cons_of_mem b hx)⟩

theorem strcasecmp_eq_zero_iff :
    ∀ (a b : List ℕ), ValidWord a → ValidWord b →
      (strcasecmp a b = 0 ↔ foldw a = foldw b)
  | [], [] => by simp [strcasecmp, foldw]
  | [], b :: bs => by
    intro _ hb
    have h0 : tolowerByte b ≠ 0 :=
      tolowerByte_ne_zero (by have := (validWord_cons hb).1; omega)
    simp only [strcasecmp, foldw, List.map_nil, List.map_cons, zero_sub,
      neg_eq_zero]
    constructor
    · intro h; exfalso; exact h0 (by exact_mod_cast h)
    · intro h; exact absurd h (by simp)
  | a :: as, [] => by
    intro ha _
    have h0 : tolowerByte a ≠ 0 :=
      tolowerByte_ne_zero (by have := (validWord_cons ha).1; omega)
    simp only [strcasecmp, foldw, List.map_nil, List.map_cons]
    constructor
    · intro h; exfalso; exact h0 (by exact_mod_cast h)
    · intro h; exact absurd h (by simp)
  | a :: as, b :: bs => by
    intro ha hb
    by_cases h : tolowerByte a = tolowerByte b
    · have h1 : strcasecmp (a :: as) (b :: bs) = strcasecmp as bs := by
        conv_lhs => rw [strcasecmp]
        rw [if_pos h]
      rw [h1, strcasecmp_eq_zero_iff as bs (validWord_cons ha).2 (validWord_cons hb).2]
      constructor
      · intro h2; rw [foldw_cons, foldw_cons, h, h2]
      · intro h2
        rw [foldw_cons, foldw_cons] at h2
        injection h2 with _ h4
    · have h1 : strcasecmp (a :: as) (b :: bs) =
          (tolowerByte a : ℤ) - tolowerByte b := by
        conv_lhs => rw [strcasecmp]
        rw [if_neg h]
      rw [h1]
      constructor
      · intro h2
        exfalso
        apply h
        have h3 : (tolowerByte a : ℤ) = (tolowerByte b : ℤ) := by omega
        exact_mod_cast h3
      · intro h2
        rw [foldw_cons, foldw_cons] at h2
        injection h2 with h3 _
        exact absurd h3 h

theorem fnvXorByte_tolower (b : ℕ) : fnvXorByte (tolowerByte b) = fnvXorByte b := by
  by_cases h : 65 ≤ b ∧ b ≤ 90
  · have h1 : tolowerByte b = b + 32 := by unfold tolowerByte; rw [if_pos h]
    have h2 : tolowerByte (b + 32) = b + 32 := by
      unfold tolowerByte; rw [if_neg (by omega)]
    unfold fnvXorByte
    rw [h1, if_pos (show b + 32 < 128 by omega), if_pos (show b < 128 by omega), h2]
  · have h1 : tolowerByte b = b := by unfold tolowerByte; rw [if_neg h]
    rw [h1]

theorem fnv_foldl_foldw (w : List ℕ) : ∀ h : ℕ,
    (foldw w).foldl (fun h b => (Nat.xor h (fnvXorByte b) * 16777619) % 4294967296) h =
      w.foldl (fun h b => (Nat.xor h (fnvXorByte b) * 16777619) % 4294967296) h := by
  induction w with
  | nil => intro h; rfl
  | cons b bs ih =>
    intro h
    rw [foldw_cons]
    simp only [List.foldl_cons]
    rw [fnvXorByte_tolower]
    exact ih _

theorem hash_function_foldw (w : List ℕ) (s : ℕ) :
    hash_function (foldw w) s = hash_function w s := by
  unfold hash_function
  rw [fnv_foldl_foldw]

theorem hash_function_lt (w : List ℕ) {s : ℕ} (hs : 0 < s) :
    hash_function w s < s := Nat.mod_lt _ hs

/-! ### Ordered-insert lemmas -/

theorem mem_insert_pos_rev (p q : ℤ) :
    ∀ l : List ℤ, q ∈ insert_pos_rev p l ↔ q = p ∨ q ∈ l
  | [] => by simp [insert_pos_rev]
  | x :: xs => by
    unfold insert_pos_rev
    split
    · rw [List.mem_cons, mem_insert_pos_rev p q xs, List.mem_cons]
      tauto
    · exact List.mem_cons

theorem mem_insert_pos (l : List ℤ) (p q : ℤ) :
    q ∈ insert_pos l p ↔ q = p ∨ q ∈ l := by
  unfold insert_pos
  rw [List.mem_reverse, mem_insert_pos_rev, List.mem_reverse]

theorem head_insert_pos_rev (p : ℤ) (l : List ℤ) :
    (insert_pos_rev p l).head? = l.head? ∨ (insert_pos_rev p l).head? = some p := by
  cases l with
  | nil => right; rfl
  | cons x xs =>
    unfold insert_pos_rev
    split
    · left; rfl
    · right; rfl

theorem chain'_gt_insert_pos_rev (p : ℤ) :
    ∀ l : List ℤ, List.Chain' (· > ·) l → p ∉ l →
      List.Chain' (· > ·) (insert_pos_rev p l)
  | [] => by intro _ _; simp [insert_pos_rev]
  | x :: xs => by
    intro hc hmem
    unfold insert_pos_rev
    split
    · rename_i hgt
      rw [List.chain'_cons']
      refine ⟨?_, chain'_gt_insert_pos_rev p xs (List.chain'_cons'.mp hc).2
        (fun hx => hmem (List.mem_cons_of_mem x hx))⟩
      intro y hy
      rcases head_insert_pos_rev p xs with h | h
      · exact (List.chain'_cons'.mp hc).1 y (h ▸ hy)
      · rw [h] at hy
        simp only [Option.mem_def, Option.some_inj] at hy
        omega
    · rename_i hle
      have hne : p ≠ x := fun h => hmem (h ▸ List.mem_cons_self x xs)
      rw [List.chain'_cons']
      exact ⟨fun y hy => by
        simp only [List.head?_cons, Option.mem_def, Option.some_inj] at hy
        omega, hc⟩

theorem chain'_lt_insert_pos {l : List ℤ} {p : ℤ}
    (hc : List.Chain' (· < ·) l) (hp : p ∉ l) :
    List.Chain' (· < ·) (insert_pos l p) := by
  unfold insert_pos
  rw [show ((· < ·) : ℤ → ℤ → Prop) = flip (· > ·) from rfl] at hc ⊢
  rw [← List.chain'_reverse] at hc
  rw [List.chain'_reverse]
  rw [show flip (flip (· > ·) : ℤ → ℤ → Prop) = (· > ·) from rfl]
  exact chain'_gt_insert_pos_rev p l.reverse hc (by rwa [List.mem_reverse])

/-! ### Modular-arithmetic lemmas for the probe sequence -/

theorem dist_lt {size : ℕ} (h : 0 < size) (s j : ℕ) : dist size s j < size :=
  Nat.mod_lt _ h

theorem add_dist {size s j : ℕ} (hs : s < size) (hj : j < size) :
    (s + dist size s j) % size = j := by
  unfold dist
  rw [Nat.add_mod_mod]
  have h2 : s + (j + size - s) = j + size := by omega
  rw [h2, Nat.add_mod_right, Nat.mod_eq_of_lt hj]

theorem step_mod_inj {size : ℕ} (s : ℕ) {d1 d2 : ℕ}
    (h1 : d1 < size) (h2 : d2 < size)
    (he : (s + d1) % size = (s + d2) % size) : d1 = d2 := by
  have hmod : d1 % size = d2 % size :=
    Nat.ModEq.add_left_cancel' s he
  rwa [Nat.mod_eq_of_lt h1, Nat.mod_eq_of_lt h2] at hmod

theorem mod_step_shift (size s d : ℕ) :
    ((s + 1) % size + d) % size = (s + (d + 1)) % size := by
  rw [Nat.mod_add_mod]
  congr 1
  omega

/-! ### Probe-loop characterization -/

theorem slotStop_empty {t : List (Option HEntry)} {w : List ℕ} {i : ℕ}
    (h : t.get? i = some none) : slotStop t w i := by
  unfold slotStop slotStopB
  rw [h]

theorem slotStop_found {t : List (Option HEntry)} {w : List ℕ} {i : ℕ} {e : HEntry}
    (h : t.get? i = some (some e)) (hm : strcasecmp e.word w = 0) : slotStop t w i := by
  unfold slotStop slotStopB
  rw [h]
  exact decide_eq_true hm

theorem slotStop_elim {t : List (Option HEntry)} {w : List ℕ} {i : ℕ}
    (h : slotStop t w i) :
    t.get? i = some none ∨
      ∃ e, t.get? i = some (some e) ∧ strcasecmp e.word w = 0 := by
  unfold slotStop slotStopB at h
  cases hg : t.get? i with
  | none => rw [hg] at h; exact absurd h (by simp)
  | some o =>
    cases o with
    | none => exact Or.inl rfl
    | some e =>
      rw [hg] at h
      exact Or.inr ⟨e, rfl, of_decide_eq_true h⟩

theorem probeAux_found {t : List (Option HEntry)} {size : ℕ} {w : List ℕ}
    (hlen : t.length = size) :
    ∀ (d f s : ℕ) (e : HEntry), s < size → d < f →
      t.get? ((s + d) % size) = some (some e) →
      strcasecmp e.word w = 0 →
      (∀ dd, dd < d → ¬ slotStop t w ((s + dd) % size)) →
      probeAux t size w f s = .found ((s + d) % size) := by
  intro d
  induction d with
  | zero =>
    intro f s e hs hf hget hcmp _
    obtain ⟨f', rfl⟩ : ∃ f', f = f' + 1 := ⟨f - 1, by omega⟩
    simp only [Nat.add_zero, Nat.mod_eq_of_lt hs] at hget ⊢
    unfold probeAux
    simp only [hget]
    rw [if_pos hcmp]
  | succ d ih =>
    intro f s e hs hf hget hcmp hmin
    obtain ⟨f', rfl⟩ : ∃ f', f = f' + 1 := ⟨f - 1, by omega⟩
    have h0 : ¬ slotStop t w s := by
      have := hmin 0 (Nat.succ_pos d)
      simpa only [Nat.add_zero, Nat.mod_eq_of_lt hs] using this
    cases hgs : t.get? s with
    | none =>
      exfalso
      rw [List.get?_eq_none] at hgs
      omega
    | some o =>
      cases o with
      | none => exact absurd (slotStop_empty hgs) h0
      | some e2 =>
        have hne : ¬ strcasecmp e2.word w = 0 := fun hc => h0 (slotStop_found hgs hc)
        unfold probeAux
        simp only [hgs]
        rw [if_neg hne]
        have hs1 : (s + 1) % size < size := Nat.mod_lt _ (by omega)
        have hget' : t.get? (((s + 1) % size + d) % size) = some (some e) := by
          rw [mod_step_shift]; exact hget
        have hmin' : ∀ dd, dd < d → ¬ slotStop t w (((s + 1) % size + dd) % size) := by
          intro dd hdd
          rw [mod_step_shift]
          exact hmin (dd + 1) (by omega)
        rw [ih f' ((s + 1) % size) e hs1 (by omega) hget' hcmp hmin', mod_step_shift]

theorem probeAux_emptyAt {t : List (Option HEntry)} {size : ℕ} {w : List ℕ}
    (hlen : t.length = size) :
    ∀ (d f s : ℕ), s < size → d < f →
      t.get? ((s + d) % size) = some none →
      (∀ dd, dd < d → ¬ slotStop t w ((s + dd) % size)) →
      probeAux t size w f s = .emptyAt ((s + d) % size) := by
  intro d
  induction d with
  | zero =>
    intro f s hs hf hget _
    obtain ⟨f', rfl⟩ : ∃ f', f = f' + 1 := ⟨f - 1, by omega⟩
    simp only [Nat.add_zero, Nat.mod_eq_of_lt hs] at hget ⊢
    unfold probeAux
    simp only [hget]
  | succ d ih =>
    intro f s hs hf hget hmin
    obtain ⟨f', rfl⟩ : ∃ f', f = f' + 1 := ⟨f - 1, by omega⟩
    have h0 : ¬ slotStop t w s := by
      have := hmin 0 (Nat.succ_pos d)
      simpa only [Nat.add_zero, Nat.mod_eq_of_lt hs] using this
    cases hgs : t.get? s with
    | none =>
      exfalso
      rw [List.get?_eq_none] at hgs
      omega
    | some o =>
      cases o with
      | none => exact absurd (slotStop_empty hgs) h0
      | some e2 =>
        have hne : ¬ strcasecmp e2.word w = 0 := fun hc => h0 (slotStop_found hgs hc)
        unfold probeAux
        simp only [hgs]
        rw [if_neg hne]
        have hs1 : (s + 1) % size < size := Nat.mod_lt _ (by omega)
        have hget' : t.get? (((s + 1) % size + d) % size) = some none := by
          rw [mod_step_shift]; exact hget
        have hmin' : ∀ dd, dd < d → ¬ slotStop t w (((s + 1) % size + dd) % size) := by
          intro dd hdd
          rw [mod_step_shift]
          exact hmin (dd + 1) (by omega)
        rw [ih f' ((s + 1) % size) hs1 (by omega) hget' hmin', mod_step_shift]

theorem probeAux_full {t : List (Option HEntry)} {size : ℕ} {w : List ℕ}
    (hlen : t.length = size) :
    ∀ (f s : ℕ), s < size →
      (∀ dd, dd < f → ¬ slotStop t w ((s + dd) % size)) →
      probeAux t size w f s = .full := by
  intro f
  induction f with
  | zero => intro s _ _; rfl
  | succ f ih =>
    intro s hs hmin
    have h0 : ¬ slotStop t w s := by
      have := hmin 0 (by omega)
      simpa only [Nat.add_zero, Nat.mod_eq_of_lt hs] using this
    cases hgs : t.get? s with
    | none => unfold probeAux; simp only [hgs]
    | some o =>
      cases o with
      | none => exact absurd (slotStop_empty hgs) h0
      | some e2 =>
        have hne : ¬ strcasecmp e2.word w = 0 := fun hc => h0 (slotStop_found hgs hc)
        unfold probeAux
        simp only [hgs]
        rw [if_neg hne]
        apply ih ((s + 1) % size) (Nat.mod_lt _ (by omega))
        intro dd hdd
        rw [mod_step_shift]
        exact hmin (dd + 1) (by omega)

theorem probeEmptyAux_some {t : List (Option HEntry)} {size : ℕ}
    (hlen : t.length = size) :
    ∀ (d f s : ℕ), s < size → d < f →
      t.get? ((s + d) % size) = some none →
      (∀ dd, dd < d → ∃ e, t.get? ((s + dd) % size) = some (some e)) →
      probeEmptyAux t size f s = some ((s + d) % size) := by
  intro d
  induction d with
  | zero =>
    intro f s hs hf hget _
    obtain ⟨f', rfl⟩ : ∃ f', f = f' + 1 := ⟨f - 1, by omega⟩
    simp only [Nat.add_zero, Nat.mod_eq_of_lt hs] at hget ⊢
    unfold probeEmptyAux
    simp only [hget]
  | succ d ih =>
    intro f s hs hf hget hocc
    obtain ⟨f', rfl⟩ : ∃ f', f = f' + 1 := ⟨f - 1, by omega⟩
    obtain ⟨e2, hgs⟩ : ∃ e2, t.get? s = some (some e2) := by
      have := hocc 0 (Nat.succ_pos d)
      simpa only [Nat.add_zero, Nat.mod_eq_of_lt hs] using this
    unfold probeEmptyAux
    simp only [hgs]
    have hs1 : (s + 1) % size < size := Nat.mod_lt _ (by omega)
    have hget' : t.get? (((s + 1) % size + d) % size) = some none := by
      rw [mod_step_shift]; exact hget
    have hocc' : ∀ dd, dd < d → ∃ e, t.get? (((s + 1) % size + dd) % size) = some (some e) := by
      intro dd hdd
      rw [mod_step_shift]
      exact hocc (dd + 1) (by omega)
    rw [ih f' ((s + 1) % size) hs1 (by omega) hget' hocc', mod_step_shift]

/-! ### Slot-array surgery lemmas -/

theorem filterMap_id_cons_none (t : List (Option HEntry)) :
    (none :: t).filterMap id = t.filterMap id := rfl

theorem filterMap_id_cons_some (e : HEntry) (t : List (Option HEntry)) :
    (some e :: t).filterMap id = e :: t.filterMap id := rfl

theorem occupiedCount_le_length (t : List (Option HEntry)) :
    occupiedCount t ≤ t.length := List.length_filterMap_le _ _

theorem exists_empty_of_count_lt :
    ∀ t : List (Option HEntry), occupiedCount t < t.length →
      ∃ i, i < t.length ∧ t.get? i = some none := by
  intro t
  induction t with
  | nil => intro h; exact absurd h (by simp [occupiedCount])
  | cons o t' ih =>
    intro h
    cases o with
    | none => exact ⟨0, by simp, rfl⟩
    | some e =>
      have h' : occupiedCount t' < t'.length := by
        unfold occupiedCount at h ⊢
        rw [filterMap_id_cons_some] at h
        simpa using h
      obtain ⟨i, hi, hg⟩ := ih h'
      exact ⟨i + 1, by simpa using hi, hg⟩

theorem all_occupied_of_count_eq :
    ∀ t : List (Option HEntry), occupiedCount t = t.length →
      ∀ i, i < t.length → ∃ e, t.get? i = some (some e) := by
  intro t
  induction t with
  | nil => intro _ i hi; exact absurd hi (by simp)
  | cons o t' ih =>
    intro h i hi
    cases o with
    | none =>
      exfalso
      unfold occupiedCount at h
      rw [filterMap_id_cons_none] at h
      have := occupiedCount_le_length t'
      unfold occupiedCount at this
      simp only [List.length_cons] at h
      omega
    | some e =>
      cases i with
      | zero => exact ⟨e, rfl⟩
      | succ i' =>
        have h' : occupiedCount t' = t'.length := by
          unfold occupiedCount at h ⊢
          rw [filterMap_id_cons_some] at h
          simpa using h
        exact ih h' i' (by simpa using hi)

theorem mem_filterMap_of_get? (t : List (Option HEntry)) {i : ℕ} {e : HEntry}
    (h : t.get? i = some (some e)) : e ∈ t.filterMap id :=
  List.mem_filterMap.mpr ⟨some e, List.get?_mem h, rfl⟩

theorem filterMap_set_none_perm :
    ∀ (t : List (Option HEntry)) (j : ℕ) (e : HEntry),
      t.get? j = some none →
      ((t.set j (some e)).filterMap id).Perm (e :: t.filterMap id) := by
  intro t
  induction t with
  | nil => intro j e h; exact absurd h (by simp)
  | cons o t' ih =>
    intro j e h
    cases j with
    | zero =>
      have ho : o = none := by
        have : some o = some (none : Option HEntry) := h
        injection this
      subst ho
      have hset : (none :: t').set 0 (some e) = some e :: t' := rfl
      rw [hset, filterMap_id_cons_some, filterMap_id_cons_none]
    | succ j' =>
      have h' : t'.get? j' = some none := h
      have hset : (o :: t').set (j' + 1) (some e) = o :: t'.set j' (some e) := rfl
      rw [hset]
      cases o with
      | none =>
        rw [filterMap_id_cons_none, filterMap_id_cons_none]
        exact ih j' e h'
      | some a =>
        rw [filterMap_id_cons_some, filterMap_id_cons_some]
        exact ((ih j' e h').cons a).trans (List.Perm.swap e a _)

theorem filterMap_set_some :
    ∀ (t : List (Option HEntry)) (j : ℕ) (a : HEntry),
      t.get? j = some (some a) →
      ∃ l1 l2, t.filterMap id = l1 ++ a :: l2 ∧
        ∀ b : HEntry, (t.set j (some b)).filterMap id = l1 ++ b :: l2 := by
  intro t
  induction t with
  | nil => intro j a h; exact absurd h (by simp)
  | cons o t' ih =>
    intro j a h
    cases j with
    | zero =>
      have ho : o = some a := by
        have : some o = some (some a) := h
        injection this
      subst ho
      refine ⟨[], t'.filterMap id, ?_, ?_⟩
      · rw [filterMap_id_cons_some]; rfl
      · intro b
        have hset : (some a :: t').set 0 (some b) = some b :: t' := rfl
        rw [hset, filterMap_id_cons_some]
        rfl
    | succ j' =>
      have h' : t'.get? j' = some (some a) := h
      obtain ⟨l1, l2, heq, hset⟩ := ih j' a h'
      cases o with
      | none =>
        refine ⟨l1, l2, by rw [filterMap_id_cons_none]; exact heq, ?_⟩
        intro b
        have hs : (none :: t').set (j' + 1) (some b) = none :: t'.set j' (some b) := rfl
        rw [hs, filterMap_id_cons_none]
        exact hset b
      | some c =>
        refine ⟨c :: l1, l2, by rw [filterMap_id_cons_some, heq]; rfl, ?_⟩
        intro b
        have hs : (some c :: t').set (j' + 1) (some b) = some c :: t'.set j' (some b) := rfl
        rw [hs, filterMap_id_cons_some, hset b]
        rfl

theorem occupiedCount_set_none {t : List (Option HEntry)} {j : ℕ} {e : HEntry}
    (h : t.get? j = some none) :
    occupiedCount (t.set j (some e)) = occupiedCount t + 1 := by
  unfold occupiedCount
  rw [(filterMap_set_none_perm t j e h).length_eq]
  rfl

theorem occupiedCount_set_some {t : List (Option HEntry)} {j : ℕ} {a : HEntry}
    (h : t.get? j = some (some a)) (b : HEntry) :
    occupiedCount (t.set j (some b)) = occupiedCount t := by
  obtain ⟨l1, l2, heq, hset⟩ := filterMap_set_some t j a h
  unfold occupiedCount
  rw [heq, hset b]
  simp

theorem pairwise_slots {R : HEntry → HEntry → Prop} :
    ∀ (t : List (Option HEntry)), (t.filterMap id).Pairwise R →
      ∀ (i j : ℕ) (a b : HEntry), i < j →
        t.get? i = some (some a) → t.get? j = some (some b) → R a b := by
  intro t
  induction t with
  | nil => intro _ i j a b _ hi _; exact absurd hi (by simp)
  | cons o t' ih =>
    intro hp i j a b hij hi hj
    cases i with
    | zero =>
      have ho : o = some a := by
        have : some o = some (some a) := hi
        injection this
      subst ho
      rw [filterMap_id_cons_some] at hp
      obtain ⟨j', rfl⟩ : ∃ j', j = j' + 1 := ⟨j - 1, by omega⟩
      exact (List.pairwise_cons.mp hp).1 b (mem_filterMap_of_get? t' hj)
    | succ i' =>
      obtain ⟨j', rfl⟩ : ∃ j', j = j' + 1 := ⟨j - 1, by omega⟩
      have hp' : (t'.filterMap id).Pairwise R := by
        cases o with
        | none => rwa [filterMap_id_cons_none] at hp
        | some c =>
          rw [filterMap_id_cons_some] at hp
          exact (List.pairwise_cons.mp hp).2
      exact ih hp' i' j' a b (by omega) hi hj

theorem uniq_index {t : List (Option HEntry)}
    (hd : (t.filterMap id).Pairwise (fun a b => foldw a.word ≠ foldw b.word)) :
    ∀ (i j : ℕ) (a b : HEntry), t.get? i = some (some a) → t.get? j = some (some b) →
      foldw a.word = foldw b.word → i = j := by
  intro i j a b hi hj hf
  rcases Nat.lt_trichotomy i j with h | h | h
  · exact absurd hf (pairwise_slots t hd i j a b h hi hj)
  · exact h
  · exact absurd hf.symm (pairwise_slots t hd j i b a h hj hi)

/-! ### Packaged probe facts under the table invariant -/

theorem probe_found_of_mem {t : List (Option HEntry)} {size : ℕ} {w : List ℕ}
    (htwf : TWF t size) (hvw : ValidWord w)
    {j : ℕ} {e : HEntry} (hj : t.get? j = some (some e))
    (hfold : foldw e.word = foldw w) :
    probeAux t size w size (hash_function w size) = .found j := by
  have hjlt : j < size := by
    obtain ⟨hlt, _⟩ := List.get?_eq_some.mp hj
    rw [htwf.hlen] at hlt
    exact hlt
  have hs : hash_function w size < size := hash_function_lt w htwf.hpos
  have hvew : ValidWord e.word := htwf.hvalid e (mem_filterMap_of_get? t hj)
  have hhash : hash_function e.word size = hash_function w size := by
    rw [← hash_function_foldw e.word size, hfold, hash_function_foldw]
  have hadd : (hash_function w size + dist size (hash_function w size) j) % size = j :=
    add_dist hs hjlt
  have hcmp : strcasecmp e.word w = 0 :=
    (strcasecmp_eq_zero_iff e.word w hvew hvw).mpr hfold
  have hmin : ∀ dd, dd < dist size (hash_function w size) j →
      ¬ slotStop t w ((hash_function w size + dd) % size) := by
    intro dd hdd hstop
    have hoccd : occSlot t ((hash_function e.word size + dd) % size) :=
      htwf.hpath j e hj dd (by rw [hhash]; exact hdd)
    rw [hhash] at hoccd
    obtain ⟨e2, hge2⟩ := hoccd
    rcases slotStop_elim hstop with hemp | ⟨e3, hge3, hcmp3⟩
    · rw [hemp] at hge2
      exact absurd hge2 (by simp)
    · have hve3 : ValidWord e3.word := htwf.hvalid e3 (mem_filterMap_of_get? t hge3)
      have hf3 : foldw e3.word = foldw w := (strcasecmp_eq_zero_iff _ _ hve3 hvw).mp hcmp3
      have hidx := uniq_index htwf.hdistinct _ j e3 e hge3 hj (hf3.trans hfold.symm)
      rw [← hadd] at hidx
      have := step_mod_inj (hash_function w size)
        (lt_trans hdd (dist_lt htwf.hpos (hash_function w size) j))
        (dist_lt htwf.hpos (hash_function w size) j) hidx
      omega
  have hres := probeAux_found htwf.hlen (dist size (hash_function w size) j) size
    (hash_function w size) e hs (dist_lt htwf.hpos (hash_function w size) j)
    (by rw [hadd]; exact hj) hcmp hmin
  rw [hadd] at hres
  exact hres

theorem probe_empty_of_not_mem {t : List (Option HEntry)} {size : ℕ} {w : List ℕ}
    (htwf : TWF t size) (hnom : ∀ e ∈ t.filterMap id, foldw e.word ≠ foldw w)
    (hvw : ValidWord w) (hroom : occupiedCount t < size) :
    ∃ j, probeAux t size w size (hash_function w size) = .emptyAt j ∧
      t.get? j = some none ∧ j < size ∧
      ∀ dd, dd < dist size (hash_function w size) j →
        occSlot t ((hash_function w size + dd) % size) := by
  have hs : hash_function w size < size := hash_function_lt w htwf.hpos
  obtain ⟨i0, hi0lt, hi0⟩ := exists_empty_of_count_lt t (by rw [htwf.hlen]; exact hroom)
  have hi0lt' : i0 < size := by rw [← htwf.hlen]; exact hi0lt
  have hex : ∃ dd, slotStop t w ((hash_function w size + dd) % size) :=
    ⟨dist size (hash_function w size) i0,
      by rw [add_dist hs hi0lt']; exact slotStop_empty hi0⟩
  have hst : slotStop t w ((hash_function w size + Nat.find hex) % size) :=
    Nat.find_spec hex
  have hmin : ∀ dd, dd < Nat.find hex →
      ¬ slotStop t w ((hash_function w size + dd) % size) :=
    fun dd hdd => Nat.find_min hex hdd
  have hdlt : Nat.find hex < size := by
    have h1 : Nat.find hex ≤ dist size (hash_function w size) i0 :=
      Nat.find_min' hex (by rw [add_dist hs hi0lt']; exact slotStop_empty hi0)
    exact lt_of_le_of_lt h1 (dist_lt htwf.hpos (hash_function w size) i0)
  rcases slotStop_elim hst with hemp | ⟨e3, hge3, hcmp3⟩
  · refine ⟨(hash_function w size + Nat.find hex) % size,
      probeAux_emptyAt htwf.hlen (Nat.find hex) size (hash_function w size) hs hdlt hemp hmin,
      hemp, Nat.mod_lt _ htwf.hpos, ?_⟩
    have hdd : dist size (hash_function w size)
        ((hash_function w size + Nat.find hex) % size) = Nat.find hex := by
      apply step_mod_inj (hash_function w size)
        (dist_lt htwf.hpos _ _) hdlt
      rw [add_dist hs (Nat.mod_lt _ htwf.hpos)]
    intro dd hdd2
    rw [hdd] at hdd2
    have hns := hmin dd hdd2
    cases hg : t.get? ((hash_function w size + dd) % size) with
    | none =>
      exfalso
      rw [List.get?_eq_none, htwf.hlen] at hg
      have := Nat.mod_lt (hash_function w size + dd) htwf.hpos
      omega
    | some o =>
      cases o with
      | none => exact absurd (slotStop_empty hg) hns
      | some e2 => exact ⟨e2, hg⟩
  · exfalso
    have hve3 : ValidWord e3.word := htwf.hvalid e3 (mem_filterMap_of_get? t hge3)
    exact hnom e3 (mem_filterMap_of_get? t hge3)
      ((strcasecmp_eq_zero_iff _ _ hve3 hvw).mp hcmp3)

theorem probe_full_of_all_occupied {t : List (Option HEntry)} {size : ℕ} {w : List ℕ}
    (htwf : TWF t size) (hnom : ∀ e ∈ t.filterMap id, foldw e.word ≠ foldw w)
    (hvw : ValidWord w) (hfull : occupiedCount t = size) :
    probeAux t size w size (hash_function w size) = .full := by
  apply probeAux_full htwf.hlen size _ (hash_function_lt w htwf.hpos)
  intro dd _ hstop
  rcases slotStop_elim hstop with hemp | ⟨e3, hge3, hcmp3⟩
  · obtain ⟨e2, hg⟩ := all_occupied_of_count_eq t (by rw [htwf.hlen]; exact hfull)
      ((hash_function w size + dd) % size)
      (by rw [htwf.hlen]; exact Nat.mod_lt _ htwf.hpos)
    rw [hemp] at hg
    exact absurd hg (by simp)
  · have hve3 : ValidWord e3.word := htwf.hvalid e3 (mem_filterMap_of_get? t hge3)
    exact hnom e3 (mem_filterMap_of_get? t hge3)
      ((strcasecmp_eq_zero_iff _ _ hve3 hvw).mp hcmp3)

/-! ### Search refines the abstract association list -/

theorem hash_search_eq_alookup {ht : HashTable} {m : List (List ℕ × List ℤ)}
    (hwf : WF ht) (habs : Abs ht m) {w : List ℕ} (hvw : ValidWord w) :
    hash_search ht w = alookup (foldw w) m := by
  obtain ⟨htwf, hcnt⟩ := hwf
  by_cases hex : ∃ e ∈ ht.table.filterMap id, foldw e.word = foldw w
  · obtain ⟨e, hmem, hfold⟩ := hex
    have hmem2 : some e ∈ ht.table := by
      rcases List.mem_filterMap.mp hmem with ⟨a, ha, hae⟩
      have ha2 : a = some e := by
        cases a with
        | none => exact absurd hae (by simp)
        | some x =>
          have hx : x = e := by simpa using hae
          rw [hx]
      rwa [ha2] at ha
    obtain ⟨j, hj⟩ := List.mem_iff_get?.mp hmem2
    unfold hash_search
    rw [probe_found_of_mem htwf hvw hj hfold]
    simp only [hj]
    rw [← hfold]
    exact (habs.1 e hmem).symm
  · have hlook : alookup (foldw w) m = none := by
      cases hl : alookup (foldw w) m with
      | none => rfl
      | some l =>
        obtain ⟨e, hmem, hfold, _⟩ := habs.2 _ _ hl
        exact absurd ⟨e, hmem, hfold⟩ hex
    rw [hlook]
    unfold hash_search
    have hnom : ∀ e ∈ ht.table.filterMap id, foldw e.word ≠ foldw w :=
      fun e he hf => hex ⟨e, he, hf⟩
    have hle : occupiedCount ht.table ≤ ht.size := by
      rw [← htwf.hlen]; exact occupiedCount_le_length ht.table
    rcases lt_or_eq_of_le hle with hlt | heq
    · obtain ⟨j, hp, _, _, _⟩ := probe_empty_of_not_mem htwf hnom hvw hlt
      rw [hp]
    · rw [probe_full_of_all_occupied htwf hnom hvw heq]

/-! ### Abstract association-list lemmas -/

theorem alookup_aupdate_self (f : List ℕ) (p : ℤ) :
    ∀ m : List (List ℕ × List ℤ),
      alookup f (aupdate f p m) =
        some (match alookup f m with
              | none => [p]
              | some l => if p ∈ l then l else insert_pos l p) := by
  intro m
  induction m with
  | nil => simp [alookup, aupdate]
  | cons gl m ih =>
    obtain ⟨g, l⟩ := gl
    by_cases h : g = f
    · subst h
      unfold aupdate
      rw [if_pos rfl]
      unfold alookup
      rw [if_pos rfl, if_pos rfl]
    · unfold aupdate
      rw [if_neg h]
      unfold alookup
      rw [if_neg h, if_neg h]
      exact ih

theorem alookup_aupdate_ne {f g : List ℕ} (h : g ≠ f) (p : ℤ) :
    ∀ m, alookup g (aupdate f p m) = alookup g m := by
  intro m
  induction m with
  | nil =>
    unfold aupdate alookup
    rw [if_neg (fun hh => h hh.symm)]
    rfl
  | cons kl m ih =>
    obtain ⟨k, l⟩ := kl
    unfold aupdate
    by_cases hk : k = f
    · rw [if_pos hk]
      unfold alookup
      have hkg : ¬ k = g := fun hh => h (by rw [← hh]; exact hk)
      rw [if_neg hkg, if_neg hkg]
    · rw [if_neg hk]
      unfold alookup
      by_cases hkg : k = g
      · rw [if_pos hkg, if_pos hkg]
      · rw [if_neg hkg, if_neg hkg]
        exact ih

theorem mBuild_append (ops : List (List ℕ × ℤ)) (wp : List ℕ × ℤ) :
    mBuild (ops ++ [wp]) = aupdate (foldw wp.1) wp.2 (mBuild ops) := by
  unfold mBuild
  rw [List.foldl_append]
  rfl

theorem mBuild_spec (ops : List (List ℕ × ℤ)) :
    ∀ f : List ℕ,
      (∀ l, alookup f (mBuild ops) = some l →
        List.Chain' (· < ·) l ∧
          ∀ q : ℤ, q ∈ l ↔ ∃ w2, (w2, q) ∈ ops ∧ foldw w2 = f) ∧
      (alookup f (mBuild ops) = none →
        ∀ w2 (q : ℤ), (w2, q) ∈ ops → foldw w2 ≠ f) := by
  induction ops using List.reverseRecOn with
  | nil =>
    intro f
    constructor
    · intro l hl; exact absurd hl (by simp [mBuild, alookup])
    · intro _ w2 q hq; exact absurd hq (by simp)
  | append_singleton ops wp ih =>
    intro f
    obtain ⟨w, p⟩ := wp
    rw [mBuild_append]
    by_cases hf : foldw w = f
    · subst hf
      constructor
      · intro l hl
        rw [alookup_aupdate_self] at hl
        cases hprev : alookup (foldw w) (mBuild ops) with
        | none =>
          rw [hprev] at hl
          have hlp : [p] = l := by injection hl
          subst hlp
          refine ⟨by simp, ?_⟩
          intro q
          constructor
          · intro hq
            have hqp : q = p := by simpa using hq
            subst hqp
            exact ⟨w, by simp, rfl⟩
          · rintro ⟨w2, hmem, hfw2⟩
            rcases List.mem_append.mp hmem with hmo | hms
            · exact absurd hfw2 ((ih (foldw w)).2 hprev w2 q hmo)
            · have : w2 = w ∧ q = p := by
                have := List.mem_singleton.mp hms
                exact ⟨congrArg Prod.fst this, congrArg Prod.snd this⟩
              simp [this.2]
        | some l0 =>
          rw [hprev] at hl
          obtain ⟨hc0, hm0⟩ := (ih (foldw w)).1 l0 hprev
          have hleq : (if p ∈ l0 then l0 else insert_pos l0 p) = l := by injection hl
          subst hleq
          constructor
          · by_cases hp : p ∈ l0
            · rw [if_pos hp]; exact hc0
            · rw [if_neg hp]; exact chain'_lt_insert_pos hc0 hp
          · intro q
            have hq1 : (q ∈ if p ∈ l0 then l0 else insert_pos l0 p) ↔ (q ∈ l0 ∨ q = p) := by
              by_cases hp : p ∈ l0
              · rw [if_pos hp]
                constructor
                · exact Or.inl
                · rintro (hq | rfl)
                  · exact hq
                  · exact hp
              · rw [if_neg hp, mem_insert_pos]
                tauto
            rw [hq1]
            constructor
            · rintro (hq | rfl)
              · obtain ⟨w2, hw2, hfw2⟩ := (hm0 q).mp hq
                exact ⟨w2, List.mem_append_left _ hw2, hfw2⟩
              · exact ⟨w, List.mem_append_right _ (by simp), rfl⟩
            · rintro ⟨w2, hmem, hfw2⟩
              rcases List.mem_append.mp hmem with hmo | hms
              · exact Or.inl ((hm0 q).mpr ⟨w2, hmo, hfw2⟩)
              · have := List.mem_singleton.mp hms
                exact Or.inr (congrArg Prod.snd this)
      · intro hl
        rw [alookup_aupdate_self] at hl
        exact absurd hl (by simp)
    · have hne : f ≠ foldw w := fun hh => hf hh.symm
      rw [alookup_aupdate_ne hne]
      constructor
      · intro l hl
        obtain ⟨hc, hm⟩ := (ih f).1 l hl
        refine ⟨hc, ?_⟩
        intro q
        rw [hm q]
        constructor
        · rintro ⟨w2, hw2, hfw2⟩
          exact ⟨w2, List.mem_append_left _ hw2, hfw2⟩
        · rintro ⟨w2, hmem, hfw2⟩
          rcases List.mem_append.mp hmem with hmo | hms
          · exact ⟨w2, hmo, hfw2⟩
          · exfalso
            have hw2w : w2 = w := congrArg Prod.fst (List.mem_singleton.mp hms)
            exact hf (hw2w ▸ hfw2)
      · intro hl w2 q hmem
        rcases List.mem_append.mp hmem with hmo | hms
        · exact (ih f).2 hl w2 q hmo
        · have hw2w : w2 = w := congrArg Prod.fst (List.mem_singleton.mp hms)
          rw [hw2w]
          exact hf

theorem aupdate_keeps_other {f : List ℕ} {m : List (List ℕ × List ℤ)} (p : ℤ)
    {g : List ℕ} (h : g ≠ f) :
    alookup g (aupdate f p m) = alookup g m := alookup_aupdate_ne h p m

/-! ### Additional surgery helpers -/

theorem get?_of_mem_filterMap {t : List (Option HEntry)} {e : HEntry}
    (hmem : e ∈ t.filterMap id) : ∃ j, t.get? j = some (some e) := by
  rcases List.mem_filterMap.mp hmem with ⟨a, ha, hae⟩
  have ha2 : a = some e := by
    cases a with
    | none => exact absurd hae (by simp)
    | some x =>
      have hx : x = e := by simpa using hae
      rw [hx]
  rw [ha2] at ha
  exact List.mem_iff_get?.mp ha

theorem get?_set_self {t : List (Option HEntry)} {j : ℕ} (hj : j < t.length)
    (x : Option HEntry) : (t.set j x).get? j = some x := by
  rw [List.get?_set_eq, List.get?_eq_get hj]
  rfl

theorem occSlot_set_some {t : List (Option HEntry)} {j : ℕ} {e : HEntry}
    (hj : t.get? j = some (some e)) (b : HEntry) (i : ℕ) :
    occSlot (t.set j (some b)) i ↔ occSlot t i := by
  by_cases hij : i = j
  · subst hij
    have hlt : i < t.length := by
      obtain ⟨hl, _⟩ := List.get?_eq_some.mp hj
      exact hl
    unfold occSlot
    rw [get?_set_self hlt]
    constructor
    · intro _; exact ⟨e, hj⟩
    · intro _; exact ⟨b, rfl⟩
  · unfold occSlot
    rw [List.get?_set_ne _ _ (fun hh => hij hh.symm)]

theorem occSlot_set_none {t : List (Option HEntry)} {j : ℕ}
    (hj : t.get? j = some none) (b : HEntry) (i : ℕ) :
    occSlot (t.set j (some b)) i ↔ (i = j ∨ occSlot t i) := by
  by_cases hij : i = j
  · subst hij
    have hlt : i < t.length := by
      obtain ⟨hl, _⟩ := List.get?_eq_some.mp hj
      exact hl
    unfold occSlot
    rw [get?_set_self hlt]
    constructor
    · intro _; exact Or.inl rfl
    · intro _; exact ⟨b, rfl⟩
  · unfold occSlot
    rw [List.get?_set_ne _ _ (fun hh => hij hh.symm)]
    constructor
    · exact Or.inr
    · rintro (rfl | ho)
      · exact absurd rfl hij
      · exact ho

theorem pairwise_middle {R : HEntry → HEntry → Prop} {l1 l2 : List HEntry} {a : HEntry}
    (h : List.Pairwise R (l1 ++ a :: l2)) :
    (∀ x ∈ l1, R x a) ∧ (∀ x ∈ l2, R a x) ∧
      List.Pairwise R l1 ∧ List.Pairwise R l2 := by
  rw [List.pairwise_append] at h
  obtain ⟨h1, h2, hx⟩ := h
  rw [List.pairwise_cons] at h2
  exact ⟨fun x hxm => hx x hxm a (by simp), h2.1, h1, h2.2⟩

theorem pairwise_replace {R : HEntry → HEntry → Prop} {l1 l2 : List HEntry} {a b : HEntry}
    (h : List.Pairwise R (l1 ++ a :: l2))
    (hfwd : ∀ x, R a x → R b x) (hbwd : ∀ x, R x a → R x b) :
    List.Pairwise R (l1 ++ b :: l2) := by
  rw [List.pairwise_append] at h ⊢
  obtain ⟨h1, h2, hx⟩ := h
  rw [List.pairwise_cons] at h2 ⊢
  refine ⟨h1, ⟨fun y hy => hfwd y (h2.1 y hy), h2.2⟩, ?_⟩
  intro p hp q hq
  rcases List.mem_cons.mp hq with rfl | hq2
  · exact hbwd p (hx p hp a (by simp))
  · exact hx p hp q (List.mem_cons_of_mem _ hq2)

theorem mem_replace_of_ne {l1 l2 : List HEntry} {a b x : HEntry}
    (hx : x ∈ l1 ++ a :: l2) (hne : x ≠ a) : x ∈ l1 ++ b :: l2 := by
  rcases List.mem_append.mp hx with h1 | h2
  · exact List.mem_append_left _ h1
  · rcases List.mem_cons.mp h2 with rfl | h3
    · exact absurd rfl hne
    · exact List.mem_append_right _ (List.mem_cons_of_mem _ h3)

theorem mem_middle_of_side {l1 l2 : List HEntry} {b x : HEntry}
    (hx : x ∈ l1 ++ l2) : x ∈ l1 ++ b :: l2 := by
  rcases List.mem_append.mp hx with h1 | h2
  · exact List.mem_append_left _ h1
  · exact List.mem_append_right _ (List.mem_cons_of_mem _ h2)

/-! ### Insert preserves the invariant and refines the abstract update -/

theorem hash_insert_core_found {ht : HashTable} {w : List ℕ} {p : ℤ} {j : ℕ} {e : HEntry}
    (hp : probeAux ht.table ht.size w ht.size (hash_function w ht.size) = .found j)
    (hj : ht.table.get? j = some (some e)) :
    hash_insert_core ht w p =
      ⟨ht.size, ht.table.set j (some (updateEntryOcc e p)), ht.entries⟩ := by
  unfold hash_insert_core
  simp only [hp, hj]

theorem hash_insert_core_empty {ht : HashTable} {w : List ℕ} {p : ℤ} {j : ℕ}
    (hp : probeAux ht.table ht.size w ht.size (hash_function w ht.size) = .emptyAt j) :
    hash_insert_core ht w p =
      ⟨ht.size, ht.table.set j (some ⟨w, [p]⟩), ht.entries + 1⟩ := by
  unfold hash_insert_core
  simp only [hp]

theorem hash_insert_core_spec {ht : HashTable} {m : List (List ℕ × List ℤ)}
    (hwf : WF ht) (habs : Abs ht m) {w : List ℕ} (hvw : ValidWord w) (p : ℤ)
    (hroom : ht.entries < ht.size) :
    WF (hash_insert_core ht w p) ∧
      Abs (hash_insert_core ht w p) (aupdate (foldw w) p m) ∧
      (hash_insert_core ht w p).size = ht.size ∧
      ht.entries ≤ (hash_insert_core ht w p).entries ∧
      (hash_insert_core ht w p).entries ≤ ht.entries + 1 := by
  obtain ⟨htwf, hcnt⟩ := hwf
  by_cases hex : ∃ e ∈ ht.table.filterMap id, foldw e.word = foldw w
  · -- the probed word is already stored: update that slot
    obtain ⟨e, hmem, hfold⟩ := hex
    obtain ⟨j, hj⟩ := get?_of_mem_filterMap hmem
    have hprobe := probe_found_of_mem htwf hvw hj hfold
    rw [hash_insert_core_found hprobe hj]
    have he2word : (updateEntryOcc e p).word = e.word := by
      unfold updateEntryOcc; split <;> rfl
    have he2occ : (updateEntryOcc e p).occ =
        if p ∈ e.occ then e.occ else insert_pos e.occ p := by
      unfold updateEntryOcc
      by_cases hp2 : p ∈ e.occ
      · rw [if_pos hp2, if_pos hp2]
      · rw [if_neg hp2, if_neg hp2]
    obtain ⟨l1, l2, hfm, hsetfm⟩ := filterMap_set_some ht.table j e hj
    have hnewfm : (ht.table.set j (some (updateEntryOcc e p))).filterMap id =
        l1 ++ updateEntryOcc e p :: l2 := hsetfm (updateEntryOcc e p)
    have hdist0 : (l1 ++ e :: l2).Pairwise (fun a b => foldw a.word ≠ foldw b.word) :=
      hfm ▸ htwf.hdistinct
    have hmid := pairwise_middle hdist0
    have hside : ∀ x ∈ l1 ++ l2, foldw x.word ≠ foldw e.word := by
      intro x hx
      rcases List.mem_append.mp hx with h1 | h2
      · exact hmid.1 x h1
      · exact fun hh => hmid.2.1 x h2 hh.symm
    have hsidemem : ∀ x ∈ l1 ++ l2, x ∈ ht.table.filterMap id := by
      intro x hx
      rw [hfm]
      exact mem_middle_of_side hx
    have hsorted_e : List.Chain' (· < ·) e.occ := htwf.hsorted e hmem
    have he2sorted : List.Chain' (· < ·) (updateEntryOcc e p).occ := by
      rw [he2occ]
      by_cases hp2 : p ∈ e.occ
      · rw [if_pos hp2]; exact hsorted_e
      · rw [if_neg hp2]; exact chain'_lt_insert_pos hsorted_e hp2
    have hlook : alookup (foldw w) m = some e.occ := by
      rw [← hfold]; exact habs.1 e hmem
    refine ⟨⟨⟨?_, htwf.hpos, ?_, ?_, ?_, ?_⟩, ?_⟩, ⟨?_, ?_⟩, rfl, le_refl _, Nat.le_succ _⟩
    · rw [List.length_set]; exact htwf.hlen
    · intro x hx
      rw [hnewfm] at hx
      rcases List.mem_append.mp hx with h1 | h2
      · exact htwf.hvalid x (hsidemem x (List.mem_append_left _ h1))
      · rcases List.mem_cons.mp h2 with rfl | h3
        · rw [he2word]; exact htwf.hvalid e hmem
        · exact htwf.hvalid x (hsidemem x (List.mem_append_right _ h3))
    · intro x hx
      rw [hnewfm] at hx
      rcases List.mem_append.mp hx with h1 | h2
      · exact htwf.hsorted x (hsidemem x (List.mem_append_left _ h1))
      · rcases List.mem_cons.mp h2 with rfl | h3
        · exact he2sorted
        · exact htwf.hsorted x (hsidemem x (List.mem_append_right _ h3))
    · rw [hnewfm]
      refine pairwise_replace hdist0 ?_ ?_
      · intro x hx; rw [he2word]; exact hx
      · intro x hx; rw [he2word]; exact hx
    · intro j' e' hj' dd hdd
      rw [occSlot_set_some hj (updateEntryOcc e p) _]
      by_cases hjj : j' = j
      · subst hjj
        have hjlen : j' < ht.table.length := (List.get?_eq_some.mp hj).1
        rw [get?_set_self hjlen] at hj'
        have he' : e' = updateEntryOcc e p := by
          have h1 : some (updateEntryOcc e p) = some e' := by injection hj'
          injection h1 with h2
          exact h2.symm
        subst he'
        rw [he2word] at hdd ⊢
        exact htwf.hpath j' e hj dd hdd
      · have hold : ht.table.get? j' = some (some e') := by
          rw [← List.get?_set_ne (some (updateEntryOcc e p)) ht.table
            (fun hh => hjj hh.symm)]
          exact hj'
        exact htwf.hpath j' e' hold dd hdd
    · rw [occupiedCount_set_some hj (updateEntryOcc e p)]
      exact hcnt
    · -- Abs, first direction
      intro x hx
      rw [hnewfm] at hx
      rcases List.mem_append.mp hx with h1 | h2
      · have hne : foldw x.word ≠ foldw w := by
          rw [← hfold]; exact hside x (List.mem_append_left _ h1)
        rw [alookup_aupdate_ne hne]
        exact habs.1 x (hsidemem x (List.mem_append_left _ h1))
      · rcases List.mem_cons.mp h2 with rfl | h3
        · rw [he2word, hfold, alookup_aupdate_self, hlook]
          show some (if p ∈ e.occ then e.occ else insert_pos e.occ p) = _
          rw [← he2occ]
        · have hne : foldw x.word ≠ foldw w := by
            rw [← hfold]; exact hside x (List.mem_append_right _ h3)
          rw [alookup_aupdate_ne hne]
          exact habs.1 x (hsidemem x (List.mem_append_right _ h3))
    · -- Abs, second direction
      intro f l hl
      by_cases hff : f = foldw w
      · subst hff
        rw [alookup_aupdate_self, hlook] at hl
        have hleq : (if p ∈ e.occ then e.occ else insert_pos e.occ p) = l := by
          injection hl
        refine ⟨updateEntryOcc e p, ?_, ?_, ?_⟩
        · rw [hnewfm]; exact List.mem_append_right _ (List.mem_cons_self _ _)
        · rw [he2word, hfold]
        · rw [he2occ]; exact hleq
      · rw [alookup_aupdate_ne hff] at hl
        obtain ⟨x, hxmem, hxfold, hxocc⟩ := habs.2 f l hl
        have hxne : x ≠ e := by
          intro hh
          apply hff
          rw [← hxfold, hh, hfold]
        refine ⟨x, ?_, hxfold, hxocc⟩
        rw [hnewfm]
        exact mem_replace_of_ne (hfm ▸ hxmem) hxne
  · -- fresh word: a new entry is created in the first empty slot
    have hnom : ∀ x ∈ ht.table.filterMap id, foldw x.word ≠ foldw w :=
      fun x hx hf => hex ⟨x, hx, hf⟩
    have hroomc : occupiedCount ht.table < ht.size := by rw [← hcnt]; exact hroom
    obtain ⟨j, hprobe, hempty, hjlt, hprior⟩ := probe_empty_of_not_mem htwf hnom hvw hroomc
    rw [hash_insert_core_empty hprobe]
    have hperm := filterMap_set_none_perm ht.table j ⟨w, [p]⟩ hempty
    have hlookupnone : alookup (foldw w) m = none := by
      cases hl : alookup (foldw w) m with
      | none => rfl
      | some l =>
        obtain ⟨x, hxmem, hxfold, _⟩ := habs.2 _ _ hl
        exact absurd hxfold (hnom x hxmem)
    refine ⟨⟨⟨?_, htwf.hpos, ?_, ?_, ?_, ?_⟩, ?_⟩, ⟨?_, ?_⟩, rfl, Nat.le_succ _, le_refl _⟩
    · rw [List.length_set]; exact htwf.hlen
    · intro x hx
      rcases List.mem_cons.mp (hperm.mem_iff.mp hx) with rfl | h2
      · exact hvw
      · exact htwf.hvalid x h2
    · intro x hx
      rcases List.mem_cons.mp (hperm.mem_iff.mp hx) with rfl | h2
      · exact List.chain'_singleton p
      · exact htwf.hsorted x h2
    · have hp1 : (HEntry.mk w [p] :: ht.table.filterMap id).Pairwise
          (fun a b => foldw a.word ≠ foldw b.word) := by
        rw [List.pairwise_cons]
        exact ⟨fun x hx hh => hnom x hx hh.symm, htwf.hdistinct⟩
      exact hp1.perm hperm.symm (fun hxy hh => hxy hh.symm)
    · intro j' e' hj' dd hdd
      rw [occSlot_set_none hempty ⟨w, [p]⟩ _]
      by_cases hjj : j' = j
      · subst hjj
        have hjlen : j' < ht.table.length := (List.get?_eq_some.mp hempty).1
        rw [get?_set_self hjlen] at hj'
        have he' : e' = ⟨w, [p]⟩ := by
          have h1 : some (HEntry.mk w [p]) = some e' := by injection hj'
          injection h1 with h2
          exact h2.symm
        subst he'
        exact Or.inr (hprior dd hdd)
      · have hold : ht.table.get? j' = some (some e') := by
          rw [← List.get?_set_ne (some (HEntry.mk w [p])) ht.table
            (fun hh => hjj hh.symm)]
          exact hj'
        exact Or.inr (htwf.hpath j' e' hold dd hdd)
    · rw [occupiedCount_set_none hempty, ← hcnt]
    · intro x hx
      rcases List.mem_cons.mp (hperm.mem_iff.mp hx) with rfl | h2
      · rw [alookup_aupdate_self, hlookupnone]
      · have hne : foldw x.word ≠ foldw w := hnom x h2
        rw [alookup_aupdate_ne hne]
        exact habs.1 x h2
    · intro f l hl
      by_cases hff : f = foldw w
      · subst hff
        rw [alookup_aupdate_self, hlookupnone] at hl
        have hleq : [p] = l := by injection hl
        refine ⟨⟨w, [p]⟩, ?_, rfl, hleq⟩
        exact hperm.mem_iff.mpr (List.mem_cons_self _ _)
      · rw [alookup_aupdate_ne hff] at hl
        obtain ⟨x, hxmem, hxfold, hxocc⟩ := habs.2 f l hl
        exact ⟨x, hperm.mem_iff.mpr (List.mem_cons_of_mem _ hxmem), hxfold, hxocc⟩

/-! ### Resize: totality and invariant preservation -/

theorem probeEmpty_exists {t : List (Option HEntry)} {ns : ℕ}
    (hlen : t.length = ns) (hpos : 0 < ns) {s : ℕ} (hs : s < ns)
    (hroom : occupiedCount t < ns) :
    ∃ j, probeEmptyAux t ns ns s = some j ∧ t.get? j = some none ∧ j < ns ∧
      ∀ dd, dd < dist ns s j → occSlot t ((s + dd) % ns) := by
  obtain ⟨i0, hi0lt, hi0⟩ := exists_empty_of_count_lt t (by rw [hlen]; exact hroom)
  have hi0' : i0 < ns := hlen ▸ hi0lt
  have hexd : ∃ d, t.get? ((s + d) % ns) = some none :=
    ⟨dist ns s i0, by rw [add_dist hs hi0']; exact hi0⟩
  have hst : t.get? ((s + Nat.find hexd) % ns) = some none := Nat.find_spec hexd
  have hmin : ∀ dd, dd < Nat.find hexd → ¬ t.get? ((s + dd) % ns) = some none :=
    fun dd hdd => Nat.find_min hexd hdd
  have hdlt : Nat.find hexd < ns := by
    have h1 : Nat.find hexd ≤ dist ns s i0 :=
      Nat.find_min' hexd (by rw [add_dist hs hi0']; exact hi0)
    exact lt_of_le_of_lt h1 (dist_lt hpos s i0)
  have hocc : ∀ dd, dd < Nat.find hexd → ∃ e, t.get? ((s + dd) % ns) = some (some e) := by
    intro dd hdd
    cases hg : t.get? ((s + dd) % ns) with
    | none =>
      exfalso
      rw [List.get?_eq_none, hlen] at hg
      have := Nat.mod_lt (s + dd) hpos
      omega
    | some o =>
      cases o with
      | none => exact absurd hg (hmin dd hdd)
      | some e2 => exact ⟨e2, rfl⟩
  refine ⟨(s + Nat.find hexd) % ns,
    probeEmptyAux_some hlen (Nat.find hexd) ns s hs hdlt hst hocc, hst,
    Nat.mod_lt _ hpos, ?_⟩
  have hdd : dist ns s ((s + Nat.find hexd) % ns) = Nat.find hexd := by
    apply step_mod_inj s (dist_lt hpos _ _) hdlt
    rw [add_dist hs (Nat.mod_lt _ hpos)]
  intro dd hdd2
  rw [hdd] at hdd2
  exact hocc dd hdd2

theorem reinsert_fold_spec (ns : ℕ) (hns : 0 < ns) :
    ∀ (es : List HEntry) (t : List (Option HEntry)),
      t.length = ns →
      occupiedCount t + es.length ≤ ns →
      (∀ x ∈ es, ValidWord x.word) →
      (∀ x ∈ es, List.Chain' (· < ·) x.occ) →
      (t.filterMap id ++ es).Pairwise (fun a b => foldw a.word ≠ foldw b.word) →
      (∀ x ∈ t.filterMap id, ValidWord x.word) →
      (∀ x ∈ t.filterMap id, List.Chain' (· < ·) x.occ) →
      (∀ j e, t.get? j = some (some e) →
        ∀ dd, dd < dist ns (hash_function e.word ns) j →
          occSlot t ((hash_function e.word ns + dd) % ns)) →
      ∃ t2, (es.foldl
          (fun acc e => acc.bind fun tt =>
            (probeEmptyAux tt ns ns (hash_function e.word ns)).map fun j =>
              tt.set j (some e))
          (some t)) = some t2 ∧
        TWF t2 ns ∧ occupiedCount t2 = occupiedCount t + es.length ∧
        (t2.filterMap id).Perm (t.filterMap id ++ es) := by
  intro es
  induction es with
  | nil =>
    intro t hlen hroom _ _ hpw hv hs hpath
    exact ⟨t, rfl, ⟨hlen, hns, hv, hs, by simpa using hpw, hpath⟩, by simp, by simp⟩
  | cons e es ih =>
    intro t hlen hroom hvv hss hpw hv hs hpath
    have hroom1 : occupiedCount t < ns := by
      have h1 := hroom
      simp only [List.length_cons] at h1
      omega
    have hhs : hash_function e.word ns < ns := hash_function_lt e.word hns
    obtain ⟨j, hpe, hempty, hjlt, hprior⟩ := probeEmpty_exists hlen hns hhs hroom1
    have hstep : (List.foldl
        (fun acc e => acc.bind fun tt =>
          (probeEmptyAux tt ns ns (hash_function e.word ns)).map fun j =>
            tt.set j (some e))
        (some t) (e :: es)) = (List.foldl
        (fun acc e => acc.bind fun tt =>
          (probeEmptyAux tt ns ns (hash_function e.word ns)).map fun j =>
            tt.set j (some e))
        (some (t.set j (some e))) es) := by
      rw [List.foldl_cons]
      simp only [Option.bind_eq_bind, Option.some_bind, hpe, Option.map_some']
    rw [hstep]
    have hperm1 := filterMap_set_none_perm t j e hempty
    have hpwmid : (t.filterMap id ++ (e :: es)).Perm
        ((e :: t.filterMap id) ++ es) := by
      have h1 : List.Perm (t.filterMap id ++ e :: es) (e :: (t.filterMap id ++ es)) :=
        List.perm_middle
      exact h1
    have hpw2 : ((t.set j (some e)).filterMap id ++ es).Pairwise
        (fun a b => foldw a.word ≠ foldw b.word) := by
      have hpermapp : ((t.set j (some e)).filterMap id ++ es).Perm
          (t.filterMap id ++ (e :: es)) :=
        (hperm1.append_right es).trans hpwmid.symm
      exact hpw.perm hpermapp.symm (fun hxy hh => hxy hh.symm)
    have hres := ih (t.set j (some e)) (by rw [List.length_set]; exact hlen)
      (by
        rw [occupiedCount_set_none hempty]
        simp only [List.length_cons] at hroom
        omega)
      (fun x hx => hvv x (List.mem_cons_of_mem _ hx))
      (fun x hx => hss x (List.mem_cons_of_mem _ hx))
      hpw2
      (by
        intro x hx
        rcases List.mem_cons.mp (hperm1.mem_iff.mp hx) with rfl | h2
        · exact hvv x (List.mem_cons_self _ _)
        · exact hv x h2)
      (by
        intro x hx
        rcases List.mem_cons.mp (hperm1.mem_iff.mp hx) with rfl | h2
        · exact hss x (List.mem_cons_self _ _)
        · exact hs x h2)
      (by
        intro j' e' hj' dd hdd
        rw [occSlot_set_none hempty e _]
        by_cases hjj : j' = j
        · subst hjj
          have hjlen : j' < t.length := (List.get?_eq_some.mp hempty).1
          rw [get?_set_self hjlen] at hj'
          have he' : e' = e := by
            have h1 : some e = some e' := by injection hj'
            injection h1 with h2
            exact h2.symm
          subst he'
          exact Or.inr (hprior dd hdd)
        · have hold : t.get? j' = some (some e') := by
            rw [← List.get?_set_ne (some e) t (fun hh => hjj hh.symm)]
            exact hj'
          exact Or.inr (hpath j' e' hold dd hdd))
    obtain ⟨t2, hfold2, htwf2, hcount2, hperm2⟩ := hres
    refine ⟨t2, hfold2, htwf2, ?_, ?_⟩
    · rw [hcount2, occupiedCount_set_none hempty]
      simp only [List.length_cons]
      omega
    · exact (hperm2.trans (hperm1.append_right es)).trans hpwmid.symm

theorem filterMap_id_replicate_none :
    ∀ n, (List.replicate n (none : Option HEntry)).filterMap id = [] := by
  intro n
  induction n with
  | zero => rfl
  | succ n ih => rw [List.replicate_succ, filterMap_id_cons_none]; exact ih

theorem hash_resize_spec {ht : HashTable} (hwf : WF ht) :
    ∃ ht2, hash_resize ht = some ht2 ∧ WF ht2 ∧
      ht2.size = ht.size * 2 + 1 ∧ ht2.entries = ht.entries ∧
      (ht2.table.filterMap id).Perm (ht.table.filterMap id) := by
  obtain ⟨htwf, hcnt⟩ := hwf
  have hcount0 : occupiedCount (List.replicate (ht.size * 2 + 1) (none : Option HEntry)) = 0 := by
    unfold occupiedCount
    rw [filterMap_id_replicate_none]
    rfl
  have hlesum : occupiedCount ht.table ≤ ht.size := by
    rw [← htwf.hlen]; exact occupiedCount_le_length _
  have hres := reinsert_fold_spec (ht.size * 2 + 1) (by omega)
    (ht.table.filterMap id)
    (List.replicate (ht.size * 2 + 1) none)
    (List.length_replicate _ _)
    (by
      rw [hcount0]
      have h2 : (ht.table.filterMap id).length ≤ ht.size := hlesum
      omega)
    htwf.hvalid htwf.hsorted
    (by rw [filterMap_id_replicate_none]; exact htwf.hdistinct)
    (by rw [filterMap_id_replicate_none]; intro x hx; exact absurd hx (by simp))
    (by rw [filterMap_id_replicate_none]; intro x hx; exact absurd hx (by simp))
    (by
      intro j e hj
      exfalso
      have hmem := List.get?_mem hj
      have := List.eq_of_mem_replicate hmem
      exact absurd this (by simp))
  obtain ⟨t2, hfold2, htwf2, hcount2, hperm2⟩ := hres
  refine ⟨⟨ht.size * 2 + 1, t2, ht.entries⟩, ?_, ⟨htwf2, ?_⟩, rfl, rfl, ?_⟩
  · have hzeta : hash_resize ht =
        Option.map (fun t => HashTable.mk (ht.size * 2 + 1) t ht.entries)
          ((ht.table.filterMap id).foldl
            (fun acc e => acc.bind fun tt =>
              (probeEmptyAux tt (ht.size * 2 + 1) (ht.size * 2 + 1)
                (hash_function e.word (ht.size * 2 + 1))).map fun j =>
                  tt.set j (some e))
            (some (List.replicate (ht.size * 2 + 1) none))) := rfl
    rw [hzeta, hfold2]
    rfl
  · rw [hcount2, hcount0, hcnt]
    unfold occupiedCount
    omega
  · have h2 := hperm2
    rw [filterMap_id_replicate_none] at h2
    simpa using h2

/-! ### Full insert: resize handling -/

theorem abs_of_perm {ht ht2 : HashTable} {m : List (List ℕ × List ℤ)} (habs : Abs ht m)
    (hperm : (ht2.table.filterMap id).Perm (ht.table.filterMap id)) : Abs ht2 m := by
  constructor
  · intro e he
    exact habs.1 e (hperm.mem_iff.mp he)
  · intro f l hl
    obtain ⟨e, hmem, h1, h2⟩ := habs.2 f l hl
    exact ⟨e, hperm.mem_iff.mpr hmem, h1, h2⟩

theorem entries_le_size_of_wf {ht : HashTable} (hwf : WF ht) : ht.entries ≤ ht.size := by
  rw [hwf.2, ← hwf.1.hlen]
  exact occupiedCount_le_length _

theorem hash_insert_spec {ht : HashTable} {m : List (List ℕ × List ℤ)}
    (hwf : WF ht) (habs : Abs ht m) {w : List ℕ} (hvw : ValidWord w) (p : ℤ) :
    WF (hash_insert ht w p) ∧ Abs (hash_insert ht w p) (aupdate (foldw w) p m) := by
  unfold hash_insert
  by_cases htr : resizeTrigger ht.entries ht.size = true
  · rw [if_pos htr]
    obtain ⟨ht2, hrs, hwf2, hsz2, hen2, hperm2⟩ := hash_resize_spec hwf
    rw [hrs]
    have habs2 : Abs ht2 m := abs_of_perm habs hperm2
    have hroom2 : ht2.entries < ht2.size := by
      rw [hen2, hsz2]
      have h1 := entries_le_size_of_wf hwf
      omega
    obtain ⟨hwf3, habs3, _, _, _⟩ := hash_insert_core_spec hwf2 habs2 hvw p hroom2
    exact ⟨hwf3, habs3⟩
  · rw [if_neg htr]
    have hroom : ht.entries < ht.size := by
      unfold resizeTrigger at htr
      simp only [decide_eq_true_eq, not_lt] at htr
      by_contra hge
      push_neg at hge
      have h1 : 9007199254740992 * ht.size ≤ 9007199254740992 * ht.entries :=
        Nat.mul_le_mul_left _ hge
      have h2 : 6305039478318694 * ht.size < 9007199254740992 * ht.size :=
        (Nat.mul_lt_mul_right hwf.1.hpos).mpr (by norm_num)
      omega
    obtain ⟨hwf3, habs3, _, _, _⟩ := hash_insert_core_spec hwf habs hvw p hroom
    exact ⟨hwf3, habs3⟩

/-! ### Whole insertion sequences -/

theorem hashBuild_append (n : ℕ) (ops : List (List ℕ × ℤ)) (wp : List ℕ × ℤ) :
    hashBuild n (ops ++ [wp]) = hash_insert (hashBuild n ops) wp.1 wp.2 := by
  unfold hashBuild
  rw [List.foldl_append]
  rfl

theorem hash_create_wf {n : ℕ} (hn : 1 ≤ n) :
    WF (hash_create n) ∧ Abs (hash_create n) [] := by
  refine ⟨⟨⟨List.length_replicate _ _, hn, ?_, ?_, ?_, ?_⟩, ?_⟩, ?_, ?_⟩
  · intro x hx
    rw [show (hash_create n).table = List.replicate n none from rfl,
      filterMap_id_replicate_none] at hx
    exact absurd hx (by simp)
  · intro x hx
    rw [show (hash_create n).table = List.replicate n none from rfl,
      filterMap_id_replicate_none] at hx
    exact absurd hx (by simp)
  · rw [show (hash_create n).table = List.replicate n none from rfl,
      filterMap_id_replicate_none]
    exact List.Pairwise.nil
  · intro j e hj
    exfalso
    have hmem := List.get?_mem hj
    have := List.eq_of_mem_replicate hmem
    exact absurd this (by simp)
  · show (0 : ℕ) = occupiedCount (List.replicate n none)
    unfold occupiedCount
    rw [filterMap_id_replicate_none]
    rfl
  · intro e he
    rw [show (hash_create n).table = List.replicate n none from rfl,
      filterMap_id_replicate_none] at he
    exact absurd he (by simp)
  · intro f l hl
    exact absurd hl (by simp [alookup])

theorem hashBuild_wf_abs (n : ℕ) (hn : 1 ≤ n) :
    ∀ ops : List (List ℕ × ℤ), (∀ wp ∈ ops, ValidWord wp.1) →
      WF (hashBuild n ops) ∧ Abs (hashBuild n ops) (mBuild ops) := by
  intro ops
  induction ops using List.reverseRecOn with
  | nil =>
    intro _
    exact hash_create_wf hn
  | append_singleton ops wp ih =>
    intro hv
    rw [hashBuild_append, mBuild_append]
    obtain ⟨hwf, habs⟩ := ih (fun x hx => hv x (List.mem_append_left _ hx))
    exact hash_insert_spec hwf habs
      (hv wp (List.mem_append_right _ (List.mem_singleton_self _))) wp.2

/-! ### Trie: node accessor lemmas -/

theorem child_setChild_same (t : TrieNode) (i : Fin 27) (x : Option TrieNode) :
    (t.setChild i x).child i = x := by
  cases t with
  | mk c e o ow su => exact Function.update_same i x c

theorem child_setChild_ne (t : TrieNode) {i j : Fin 27} (h : j ≠ i) (x : Option TrieNode) :
    (t.setChild i x).child j = t.child j := by
  cases t with
  | mk c e o ow su => exact Function.update_noteq h x c

theorem setChild_is_end (t : TrieNode) (i : Fin 27) (x : Option TrieNode) :
    (t.setChild i x).is_end_of_word = t.is_end_of_word := by
  cases t; rfl

theorem setChild_occ (t : TrieNode) (i : Fin 27) (x : Option TrieNode) :
    (t.setChild i x).occurrences = t.occurrences := by
  cases t; rfl

theorem setChild_orig (t : TrieNode) (i : Fin 27) (x : Option TrieNode) :
    (t.setChild i x).original_word = t.original_word := by
  cases t; rfl

theorem finishNode_child (t : TrieNode) (orig : List ℕ) (p : ℤ) (i : Fin 27) :
    (finishNode t orig p).child i = t.child i := by
  cases t; rfl

theorem finishNode_is_end (t : TrieNode) (orig : List ℕ) (p : ℤ) :
    (finishNode t orig p).is_end_of_word = true := by
  cases t; rfl

theorem finishNode_occ (t : TrieNode) (orig : List ℕ) (p : ℤ) :
    (finishNode t orig p).occurrences = t.occurrences ++ [p] := by
  cases t; rfl

theorem occAt_nil (t : TrieNode) : occAt t [] = t.occurrences := rfl

theorem endAt_nil (t : TrieNode) : endAt t [] = t.is_end_of_word := rfl

theorem occAt_cons (t : TrieNode) (j : Fin 27) (Q : List (Fin 27)) :
    occAt t (j :: Q) = match t.child j with
      | none => ([] : List ℤ)
      | some ch => occAt ch Q := by
  cases hch : t.child j with
  | none => simp only [occAt, nodeAt, hch]
  | some ch => simp only [occAt, nodeAt, hch]

theorem endAt_cons (t : TrieNode) (j : Fin 27) (Q : List (Fin 27)) :
    endAt t (j :: Q) = match t.child j with
      | none => false
      | some ch => endAt ch Q := by
  cases hch : t.child j with
  | none => simp only [endAt, nodeAt, hch]
  | some ch => simp only [endAt, nodeAt, hch]

theorem occAt_newChild (c : List ℕ) : ∀ Q, occAt (newChildNode c) Q = [] := by
  intro Q
  cases Q with
  | nil => rfl
  | cons j Q' => rw [occAt_cons]; rfl

theorem endAt_newChild (c : List ℕ) : ∀ Q, endAt (newChildNode c) Q = false := by
  intro Q
  cases Q with
  | nil => rfl
  | cons j Q' => rw [endAt_cons]; rfl

theorem occAt_create {Q : List (Fin 27)} (h : Q ≠ []) : occAt trie_create_node Q = [] := by
  cases Q with
  | nil => exact absurd rfl h
  | cons j Q' => rw [occAt_cons]; rfl

theorem endAt_create (Q : List (Fin 27)) : endAt trie_create_node Q = false := by
  cases Q with
  | nil => rfl
  | cons j Q' => rw [endAt_cons]; rfl

/-! ### Trie: path computation lemmas -/

theorem pathOfF_nil : ∀ f, pathOfF f [] = [] := by
  intro f
  cases f <;> rfl

theorem pathOfF_eq : ∀ (f g : ℕ) (w : List ℕ), w.length ≤ f → w.length ≤ g →
    pathOfF f w = pathOfF g w := by
  intro f
  induction f with
  | zero =>
    intro g w hf _
    have hw : w = [] := List.length_eq_zero.mp (by omega)
    subst hw
    rw [pathOfF_nil, pathOfF_nil]
  | succ f ih =>
    intro g w hf hg
    cases w with
    | nil => rw [pathOfF_nil, pathOfF_nil]
    | cons b bs =>
      obtain ⟨g', rfl⟩ : ∃ g', g = g' + 1 := by
        cases g with
        | zero => simp at hg
        | succ g' => exact ⟨g', rfl⟩
      have hf' : bs.length ≤ f := by
        simp only [List.length_cons] at hf; omega
      have hg' : bs.length ≤ g' := by
        simp only [List.length_cons] at hg; omega
      have hrest : (bs.drop (utf8CharLen b - 1)).length ≤ bs.length := by
        rw [List.length_drop]; omega
      simp only [pathOfF]
      cases char_index (b :: bs.take (utf8CharLen b - 1)) with
      | none => exact ih g' _ (le_trans hrest hf') (le_trans hrest hg')
      | some i =>
        rw [ih g' _ (le_trans hrest hf') (le_trans hrest hg')]

theorem pathOf_nil : pathOf [] = [] := rfl

theorem pathOf_cons_none {b : ℕ} {bs : List ℕ}
    (h : char_index (b :: bs.take (utf8CharLen b - 1)) = none) :
    pathOf (b :: bs) = pathOf (bs.drop (utf8CharLen b - 1)) := by
  unfold pathOf
  simp only [List.length_cons, pathOfF, h]
  exact pathOfF_eq _ _ _ (by rw [List.length_drop]; omega) (le_refl _)

theorem pathOf_cons_some {b : ℕ} {bs : List ℕ} {i : Fin 27}
    (h : char_index (b :: bs.take (utf8CharLen b - 1)) = some i) :
    pathOf (b :: bs) =
      (i, b :: bs.take (utf8CharLen b - 1)) :: pathOf (bs.drop (utf8CharLen b - 1)) := by
  unfold pathOf
  simp only [List.length_cons, pathOfF, h]
  rw [pathOfF_eq _ _ _ (by rw [List.length_drop]; omega) (le_refl _)]

theorem idxPath_nil : idxPath [] = [] := rfl

theorem idxPath_cons_none {b : ℕ} {bs : List ℕ}
    (h : char_index (b :: bs.take (utf8CharLen b - 1)) = none) :
    idxPath (b :: bs) = idxPath (bs.drop (utf8CharLen b - 1)) := by
  unfold idxPath
  rw [pathOf_cons_none h]

theorem idxPath_cons_some {b : ℕ} {bs : List ℕ} {i : Fin 27}
    (h : char_index (b :: bs.take (utf8CharLen b - 1)) = some i) :
    idxPath (b :: bs) = i :: idxPath (bs.drop (utf8CharLen b - 1)) := by
  unfold idxPath
  rw [pathOf_cons_some h]
  rfl

/-! ### Trie: fuel bridges -/

theorem trie_search_goF_eq : ∀ (f : ℕ) (w : List ℕ), w.length ≤ f → ∀ t : TrieNode,
    trie_search_goF f t w = lookNode t (idxPath w) := by
  intro f
  induction f with
  | zero =>
    intro w hw t
    have hw0 : w = [] := List.length_eq_zero.mp (by omega)
    subst hw0
    rfl
  | succ f ih =>
    intro w hw t
    cases w with
    | nil => rfl
    | cons b bs =>
      have hrest : (bs.drop (utf8CharLen b - 1)).length ≤ f := by
        rw [List.length_drop]
        simp only [List.length_cons] at hw
        omega
      show (match char_index (b :: bs.take (utf8CharLen b - 1)) with
            | none => trie_search_goF f t (bs.drop (utf8CharLen b - 1))
            | some i =>
              match t.child i with
              | none => none
              | some ch => trie_search_goF f ch (bs.drop (utf8CharLen b - 1))) =
          lookNode t (idxPath (b :: bs))
      cases hci : char_index (b :: bs.take (utf8CharLen b - 1)) with
      | none =>
        rw [idxPath_cons_none hci]
        exact ih _ hrest t
      | some i =>
        rw [idxPath_cons_some hci]
        cases hch : t.child i with
        | none => simp only [lookNode, nodeAt, hch]
        | some ch =>
          simp only [lookNode, nodeAt, hch]
          exact ih _ hrest ch

theorem trie_search_eq_lookNode (t : TrieNode) (w : List ℕ) :
    trie_search t w = lookNode t (idxPath w) :=
  trie_search_goF_eq w.length w (le_refl _) t

theorem trie_insert_goF_eq : ∀ (f : ℕ) (w : List ℕ), w.length ≤ f →
    ∀ (t : TrieNode) (orig : List ℕ) (p : ℤ) (moved : Bool),
      trie_insert_goF f t w orig p moved = insertPathGo t (pathOf w) orig p moved := by
  intro f
  induction f with
  | zero =>
    intro w hw t orig p moved
    have hw0 : w = [] := List.length_eq_zero.mp (by omega)
    subst hw0
    rfl
  | succ f ih =>
    intro w hw t orig p moved
    cases w with
    | nil => rfl
    | cons b bs =>
      have hrest : (bs.drop (utf8CharLen b - 1)).length ≤ f := by
        rw [List.length_drop]
        simp only [List.length_cons] at hw
        omega
      show (match char_index (b :: bs.take (utf8CharLen b - 1)) with
            | none => trie_insert_goF f t (bs.drop (utf8CharLen b - 1)) orig p moved
            | some i =>
              t.setChild i (some (trie_insert_goF f
                (match t.child i with
                 | some ch => ch
                 | none => newChildNode (b :: bs.take (utf8CharLen b - 1)))
                (bs.drop (utf8CharLen b - 1)) orig p true))) =
          insertPathGo t (pathOf (b :: bs)) orig p moved
      cases hci : char_index (b :: bs.take (utf8CharLen b - 1)) with
      | none =>
        rw [pathOf_cons_none hci]
        exact ih _ hrest t orig p moved
      | some i =>
        rw [pathOf_cons_some hci]
        show t.setChild i (some (trie_insert_goF f
            (match t.child i with
             | some ch => ch
             | none => newChildNode (b :: bs.take (utf8CharLen b - 1)))
            (bs.drop (utf8CharLen b - 1)) orig p true)) = _
        rw [ih _ hrest]
        rfl

theorem trie_insert_eq_insertPath (t : TrieNode) (w : List ℕ) {p : ℤ} (hp : 0 ≤ p) :
    trie_insert t w p = insertPathGo t (pathOf w) (w.take 99) p false := by
  unfold trie_insert
  rw [if_neg (by omega)]
  exact trie_insert_goF_eq w.length w (le_refl _) t (w.take 99) p false

theorem trie_insert_neg (t : TrieNode) (w : List ℕ) {p : ℤ} (hp : p < 0) :
    trie_insert t w p = t := by
  unfold trie_insert
  rw [if_pos hp]

/-! ### Trie: effect of an insertion on every addressed node -/

theorem insertPathGo_occ_end :
    ∀ (P : List (Fin 27 × List ℕ)) (t : TrieNode) (orig : List ℕ) (p : ℤ)
      (moved : Bool) (Q : List (Fin 27)),
      (occAt (insertPathGo t P orig p moved) Q =
        if Q = P.map Prod.fst ∧ (moved = true ∨ P ≠ []) then occAt t Q ++ [p]
        else occAt t Q) ∧
      (endAt (insertPathGo t P orig p moved) Q =
        if Q = P.map Prod.fst ∧ (moved = true ∨ P ≠ []) then true else endAt t Q) := by
  intro P
  induction P with
  | nil =>
    intro t orig p moved Q
    cases moved with
    | false =>
      have hc : ¬(Q = List.map Prod.fst ([] : List (Fin 27 × List ℕ)) ∧
          (false = true ∨ ([] : List (Fin 27 × List ℕ)) ≠ [])) := by simp
      rw [if_neg hc, if_neg hc]
      exact ⟨rfl, rfl⟩
    | true =>
      show occAt (finishNode t orig p) Q = _ ∧ endAt (finishNode t orig p) Q = _
      cases Q with
      | nil =>
        have hc : ([] : List (Fin 27)) = List.map Prod.fst ([] : List (Fin 27 × List ℕ)) ∧
            (true = true ∨ ([] : List (Fin 27 × List ℕ)) ≠ []) := by simp
        rw [if_pos hc, if_pos hc]
        rw [occAt_nil, occAt_nil, endAt_nil]
        exact ⟨finishNode_occ t orig p, finishNode_is_end t orig p⟩
      | cons j Q' =>
        have hc : ¬(j :: Q' = List.map Prod.fst ([] : List (Fin 27 × List ℕ)) ∧
            (true = true ∨ ([] : List (Fin 27 × List ℕ)) ≠ [])) := by simp
        rw [if_neg hc, if_neg hc]
        rw [occAt_cons, occAt_cons, endAt_cons, endAt_cons, finishNode_child]
        exact ⟨rfl, rfl⟩
  | cons ic P' ih =>
    obtain ⟨i, c⟩ := ic
    intro t orig p moved Q
    show occAt (t.setChild i _) Q = _ ∧ endAt (t.setChild i _) Q = _
    cases Q with
    | nil =>
      have hc : ¬(([] : List (Fin 27)) = List.map Prod.fst ((i, c) :: P') ∧
          (moved = true ∨ (i, c) :: P' ≠ [])) := by simp
      rw [if_neg hc, if_neg hc]
      rw [occAt_nil, occAt_nil, endAt_nil, endAt_nil]
      exact ⟨setChild_occ t i _, setChild_is_end t i _⟩
    | cons j Q' =>
      by_cases hji : j = i
      · subst hji
        rw [occAt_cons, occAt_cons, endAt_cons, endAt_cons, child_setChild_same]
        have hcond : (j :: Q' = List.map Prod.fst ((j, c) :: P') ∧
            (moved = true ∨ (j, c) :: P' ≠ [])) ↔ Q' = List.map Prod.fst P' := by
          simp
        cases hch : t.child j with
        | none =>
          have h1 := ih (newChildNode c) orig p true Q'
          rw [occAt_newChild, endAt_newChild] at h1
          by_cases hq : Q' = List.map Prod.fst P'
          · rw [if_pos (hcond.mpr hq), if_pos (hcond.mpr hq)]
            rw [if_pos ⟨hq, Or.inl rfl⟩, if_pos ⟨hq, Or.inl rfl⟩] at h1
            exact h1
          · rw [if_neg (fun hh => hq (hcond.mp hh)), if_neg (fun hh => hq (hcond.mp hh))]
            rw [if_neg (fun hh => hq hh.1), if_neg (fun hh => hq hh.1)] at h1
            exact h1
        | some ch =>
          have h1 := ih ch orig p true Q'
          by_cases hq : Q' = List.map Prod.fst P'
          · rw [if_pos (hcond.mpr hq), if_pos (hcond.mpr hq)]
            rw [if_pos ⟨hq, Or.inl rfl⟩, if_pos ⟨hq, Or.inl rfl⟩] at h1
            exact h1
          · rw [if_neg (fun hh => hq (hcond.mp hh)), if_neg (fun hh => hq (hcond.mp hh))]
            rw [if_neg (fun hh => hq hh.1), if_neg (fun hh => hq hh.1)] at h1
            exact h1
      · have hc : ¬(j :: Q' = List.map Prod.fst ((i, c) :: P') ∧
            (moved = true ∨ (i, c) :: P' ≠ [])) := by
          intro hh
          apply hji
          have := hh.1
          simp only [List.map_cons] at this
          injection this
        rw [if_neg hc, if_neg hc]
        rw [occAt_cons, occAt_cons, endAt_cons, endAt_cons,
          child_setChild_ne t hji]
        exact ⟨rfl, rfl⟩

/-! ### Trie: whole insertion sequences -/

theorem selPositions_append (P : List (Fin 27)) (ops : List (List ℕ × ℤ))
    (wp : List ℕ × ℤ) :
    selPositions P (ops ++ [wp]) =
      selPositions P ops ++
        (if idxPath wp.1 = P ∧ 0 ≤ wp.2 then [wp.2] else []) := by
  unfold selPositions
  rw [List.filter_append, List.map_append]
  congr 1
  by_cases h : idxPath wp.1 = P ∧ 0 ≤ wp.2
  · rw [if_pos h]
    simp [h]
  · rw [if_neg h]
    simp [h]

theorem trieBuild_append (ops : List (List ℕ × ℤ)) (wp : List ℕ × ℤ) :
    trieBuild (ops ++ [wp]) = trie_insert (trieBuild ops) wp.1 wp.2 := by
  unfold trieBuild
  rw [List.foldl_append]
  rfl

theorem trieBuild_root_not_end (ops : List (List ℕ × ℤ)) :
    (trieBuild ops).is_end_of_word = false := by
  induction ops using List.reverseRecOn with
  | nil => rfl
  | append_singleton ops wp ih =>
    rw [trieBuild_append]
    by_cases hp : wp.2 < 0
    · rw [trie_insert_neg _ _ hp]; exact ih
    · rw [trie_insert_eq_insertPath _ _ (by omega)]
      have h := (insertPathGo_occ_end (pathOf wp.1) (trieBuild ops)
        (wp.1.take 99) wp.2 false []).2
      rw [endAt_nil, endAt_nil] at h
      cases hpw : pathOf wp.1 with
      | nil =>
        rw [hpw] at h
        rw [if_neg (by simp)] at h
        rw [h]; exact ih
      | cons a P' =>
        rw [hpw] at h
        rw [if_neg (by simp)] at h
        rw [h]; exact ih

theorem trieBuild_spec (ops : List (List ℕ × ℤ)) :
    ∀ Q : List (Fin 27), Q ≠ [] →
      occAt (trieBuild ops) Q = selPositions Q ops ∧
      (endAt (trieBuild ops) Q = true ↔ selPositions Q ops ≠ []) := by
  induction ops using List.reverseRecOn with
  | nil =>
    intro Q hQ
    have hb : trieBuild [] = trie_create_node := rfl
    rw [hb]
    refine ⟨?_, ?_⟩
    · rw [occAt_create hQ]; rfl
    · rw [endAt_create]
      simp [selPositions]
  | append_singleton ops wp ih =>
    intro Q hQ
    obtain ⟨w, p⟩ := wp
    rw [trieBuild_append, selPositions_append]
    obtain ⟨ihocc, ihend⟩ := ih Q hQ
    by_cases hp : p < 0
    · rw [trie_insert_neg _ _ hp]
      have hcond : ¬(idxPath (w, p).1 = Q ∧ 0 ≤ (w, p).2) := by
        intro hh
        have := hh.2
        simp only at this
        omega
      rw [if_neg hcond, List.append_nil]
      exact ⟨ihocc, ihend⟩
    · push_neg at hp
      rw [trie_insert_eq_insertPath _ _ hp]
      have hocc := (insertPathGo_occ_end (pathOf w) (trieBuild ops) (w.take 99) p false Q).1
      have hend := (insertPathGo_occ_end (pathOf w) (trieBuild ops) (w.take 99) p false Q).2
      by_cases hqp : Q = idxPath w
      · have hPne : pathOf w ≠ [] := by
          intro hh
          apply hQ
          rw [hqp]
          unfold idxPath
          rw [hh]
          rfl
        have hcn : Q = (pathOf w).map Prod.fst ∧ (false = true ∨ pathOf w ≠ []) :=
          ⟨hqp, Or.inr hPne⟩
        rw [if_pos hcn] at hocc hend
        have hcond2 : idxPath (w, p).1 = Q ∧ 0 ≤ (w, p).2 := ⟨hqp.symm, hp⟩
        rw [if_pos hcond2]
        refine ⟨by rw [hocc, ihocc], ?_⟩
        rw [hend]
        simp
      · have hcn : ¬(Q = (pathOf w).map Prod.fst ∧ (false = true ∨ pathOf w ≠ [])) := by
          intro hh
          exact hqp hh.1
        rw [if_neg hcn] at hocc hend
        have hcond2 : ¬(idxPath (w, p).1 = Q ∧ 0 ≤ (w, p).2) := by
          intro hh
          exact hqp hh.1.symm
        rw [if_neg hcond2, List.append_nil]
        exact ⟨hocc.trans ihocc, by rw [hend]; exact ihend⟩

theorem lookNode_eq (t : TrieNode) (P : List (Fin 27)) :
    lookNode t P = if endAt t P = true then some (occAt t P) else none := by
  cases h : nodeAt t P with
  | none =>
    simp only [lookNode, endAt, occAt, h]
    rfl
  | some nd =>
    simp only [lookNode, endAt, occAt, h]

theorem trie_search_build (ops : List (List ℕ × ℤ)) (w : List ℕ) :
    trie_search (trieBuild ops) w =
      if idxPath w ≠ [] ∧ selPositions (idxPath w) ops ≠ [] then
        some (selPositions (idxPath w) ops)
      else none := by
  rw [trie_search_eq_lookNode, lookNode_eq]
  by_cases hQ : idxPath w = []
  · rw [hQ, endAt_nil, trieBuild_root_not_end]
    rw [if_neg (by simp), if_neg (by simp [hQ])]
  · obtain ⟨hocc, hend⟩ := trieBuild_spec ops (idxPath w) hQ
    by_cases hsel : selPositions (idxPath w) ops = []
    · have hne : ¬(endAt (trieBuild ops) (idxPath w) = true) :=
        fun hh => (hend.mp hh) hsel
      rw [if_neg hne, if_neg (fun hh => hh.2 hsel)]
    · rw [if_pos (hend.mpr hsel), if_pos ⟨hQ, hsel⟩, hocc]

/-! ### Tokenizer lemmas -/

theorem tokenize_go_positions :
    ∀ (text cur : List ℕ) (pos : ℕ),
      (tokenize_go text cur pos).map Prod.snd =
        List.range' pos (tokenize_go text cur pos).length := by
  intro text
  induction text with
  | nil =>
    intro cur pos
    simp only [tokenize_go]
    by_cases hc : cur.isEmpty = true
    · rw [if_pos hc]; rfl
    · rw [if_neg hc]; rfl
  | cons c rest ih =>
    intro cur pos
    simp only [tokenize_go]
    by_cases hw : isWordChar c = true
    · rw [if_pos hw]; exact ih _ _
    · rw [if_neg hw]
      by_cases hc : cur.isEmpty = true
      · rw [if_pos hc]; exact ih _ _
      · rw [if_neg hc]
        simp only [List.map_cons, List.length_cons]
        rw [ih [] (pos + 1), List.range'_succ]

theorem tokenize_go_allword :
    ∀ (text cur : List ℕ) (pos : ℕ), (∀ b ∈ text, isWordChar b = true) →
      cur ++ text ≠ [] →
      tokenize_go text cur pos = [(cur ++ text, pos)] := by
  intro text
  induction text with
  | nil =>
    intro cur pos _ hne
    have hc : ¬(cur.isEmpty = true) := by
      intro hh
      apply hne
      rw [List.append_nil]
      exact List.isEmpty_iff.mp hh
    simp only [tokenize_go]
    rw [if_neg hc, List.append_nil]
  | cons c rest ih =>
    intro cur pos hall hne
    simp only [tokenize_go]
    rw [if_pos (hall c (List.mem_cons_self _ _))]
    rw [ih (cur ++ [c]) pos (fun b hb => hall b (List.mem_cons_of_mem _ hb)) (by simp)]
    simp

theorem strtok_split_go_ne :
    ∀ (text cur tok : List ℕ), tok ∈ strtok_split_go text cur → tok ≠ [] := by
  intro text
  induction text with
  | nil =>
    intro cur tok htok
    simp only [strtok_split_go] at htok
    by_cases hc : cur.isEmpty = true
    · rw [if_pos hc] at htok
      exact absurd htok (by simp)
    · rw [if_neg hc] at htok
      have : tok = cur := by simpa using htok
      subst this
      intro hh
      rw [hh] at hc
      exact hc rfl
  | cons c rest ih =>
    intro cur tok htok
    simp only [strtok_split_go] at htok
    by_cases hd : isDelim c = true
    · rw [if_pos hd] at htok
      by_cases hc : cur.isEmpty = true
      · rw [if_pos hc] at htok
        exact ih [] tok htok
      · rw [if_neg hc] at htok
        rcases List.mem_cons.mp htok with rfl | h2
        · intro hh
          rw [hh] at hc
          exact hc rfl
        · exact ih [] tok h2
    · rw [if_neg hd] at htok
      exact ih (cur ++ [c]) tok htok

theorem foldl_filter_map {α β : Type} (P : α → Prop) [DecidablePred P] (f : α → β) :
    ∀ (l : List α) (acc : List β),
      l.foldl (fun acc j => if P j then acc ++ [f j] else acc) acc =
        acc ++ (l.filter (fun j => decide (P j))).map f := by
  intro l
  induction l with
  | nil => intro acc; simp
  | cons j l ih =>
    intro acc
    rw [List.foldl_cons]
    by_cases hp : P j
    · rw [if_pos hp, ih, List.filter_cons, if_pos (by simpa using hp)]
      simp
    · rw [if_neg hp, ih, List.filter_cons, if_neg (by simpa using hp)]

theorem processar_texto_fst (text : List ℕ) :
    (processar_texto text).1 = (strtok_split text).map foldw := rfl

theorem processar_spec (text : List ℕ) (i : ℕ) (wi : List ℕ)
    (hw : (processar_texto text).1.get? i = some wi) :
    ∃ posl, (processar_texto text).2.get? i = some posl ∧
      List.Chain' (· < ·) posl ∧
      ∀ q : ℤ, q ∈ posl ↔ ∃ j : ℕ, q = (j : ℤ) ∧
        (processar_texto text).1.get? j = some wi := by
  have hwne : wi ≠ [] := by
    have hmem := List.get?_mem hw
    rw [processar_texto_fst] at hmem
    obtain ⟨tok, htok, htokeq⟩ := List.mem_map.mp hmem
    have hne := strtok_split_go_ne text [] tok htok
    intro hh
    apply hne
    rw [← htokeq] at hh
    exact List.map_eq_nil.mp hh
  have hsnd : (processar_texto text).2.get? i =
      some ((List.range (processar_texto text).1.length).foldl
        (fun acc j => if (processar_texto text).1.getD j [] = wi then acc ++ [(j : ℤ)]
          else acc) []) := by
    have h2 : (processar_texto text).2 = (processar_texto text).1.map (fun wx =>
        (List.range (processar_texto text).1.length).foldl
          (fun acc j => if (processar_texto text).1.getD j [] = wx then acc ++ [(j : ℤ)]
            else acc) []) := rfl
    rw [h2, List.get?_map, hw]
    rfl
  rw [foldl_filter_map (fun j => (processar_texto text).1.getD j [] = wi)
    (fun j => (j : ℤ)) _ []] at hsnd
  rw [List.nil_append] at hsnd
  refine ⟨_, hsnd, ?_, ?_⟩
  · have h1 : (((List.range (processar_texto text).1.length).filter
        (fun j => decide ((processar_texto text).1.getD j [] = wi)))).Pairwise (· < ·) :=
      (List.pairwise_lt_range _).filter _
    have h2 : ((((List.range (processar_texto text).1.length).filter
        (fun j => decide ((processar_texto text).1.getD j [] = wi)))).map
          (fun j : ℕ => (j : ℤ))).Pairwise (· < ·) :=
      List.Pairwise.map (fun j : ℕ => (j : ℤ))
        (fun a b hab => by simp only []; exact_mod_cast hab) h1
    exact List.chain'_iff_pairwise.mpr h2
  · intro q
    constructor
    · intro hq
      obtain ⟨j, hj, hjq⟩ := List.mem_map.mp hq
      have hj2 := List.mem_filter.mp hj
      have hjlt : j < (processar_texto text).1.length := List.mem_range.mp hj2.1
      have hjeq : (processar_texto text).1.getD j [] = wi := of_decide_eq_true hj2.2
      refine ⟨j, hjq.symm, ?_⟩
      rw [List.getD_eq_getD_get?] at hjeq
      cases hg : (processar_texto text).1.get? j with
      | none =>
        exfalso
        rw [List.get?_eq_none] at hg
        omega
      | some x =>
        rw [hg] at hjeq
        simp only [Option.getD_some] at hjeq
        rw [hjeq]
    · rintro ⟨j, rfl, hgj⟩
      apply List.mem_map.mpr
      refine ⟨j, ?_, rfl⟩
      apply List.mem_filter.mpr
      obtain ⟨hjlt, _⟩ := List.get?_eq_some.mp hgj
      refine ⟨List.mem_range.mpr hjlt, ?_⟩
      apply decide_eq_true
      rw [List.getD_eq_getD_get?, hgj]
      rfl

/-! ### Load factor bound -/

theorem hash_insert_core_shape (ht : HashTable) (w : List ℕ) (p : ℤ) :
    (hash_insert_core ht w p).size = ht.size ∧
      (hash_insert_core ht w p).entries ≤ ht.entries + 1 := by
  unfold hash_insert_core
  cases probeAux ht.table ht.size w ht.size (hash_function w ht.size) with
  | found i =>
    dsimp only
    cases hg : ht.table.get? i with
    | none => exact ⟨rfl, Nat.le_succ _⟩
    | some o =>
      cases o with
      | none => exact ⟨rfl, Nat.le_succ _⟩
      | some e => exact ⟨rfl, Nat.le_succ _⟩
  | emptyAt i => exact ⟨rfl, Nat.le_refl _⟩
  | full => exact ⟨rfl, Nat.le_succ _⟩

theorem hash_resize_shape (ht ht2 : HashTable) (h : hash_resize ht = some ht2) :
    ht2.size = ht.size * 2 + 1 ∧ ht2.entries = ht.entries := by
  have hz : hash_resize ht = (((ht.table.filterMap id).foldl
      (fun acc e => acc.bind fun t =>
        (probeEmptyAux t (ht.size * 2 + 1) (ht.size * 2 + 1)
          (hash_function e.word (ht.size * 2 + 1))).map fun j => t.set j (some e))
      (some (List.replicate (ht.size * 2 + 1) none))).map
    fun t => ⟨ht.size * 2 + 1, t, ht.entries⟩) := rfl
  rw [hz] at h
  obtain ⟨t, _, hmk⟩ := Option.map_eq_some'.mp h
  rw [← hmk]
  exact ⟨rfl, rfl⟩

theorem hash_insert_bound (ht : HashTable) (w : List ℕ) (p : ℤ)
    (hs : 1 ≤ ht.size) (hb : 10 * ht.entries ≤ 7 * ht.size + 10) :
    1 ≤ (hash_insert ht w p).size ∧
      10 * (hash_insert ht w p).entries ≤ 7 * (hash_insert ht w p).size + 10 := by
  unfold hash_insert
  by_cases htr : resizeTrigger ht.entries ht.size = true
  · rw [if_pos htr]
    cases hres : hash_resize ht with
    | none => exact ⟨hs, hb⟩
    | some ht2 =>
      dsimp only
      obtain ⟨hsz, hen⟩ := hash_resize_shape ht ht2 hres
      obtain ⟨h1, h2⟩ := hash_insert_core_shape ht2 w p
      exact ⟨by omega, by omega⟩
  · rw [if_neg htr]
    have hno : ¬(9007199254740992 * ht.entries > 6305039478318694 * ht.size) := by
      intro hgt
      exact htr (decide_eq_true hgt)
    obtain ⟨h1, h2⟩ := hash_insert_core_shape ht w p
    exact ⟨by omega, by omega⟩

theorem hashBuild_bound (n : ℕ) (hn : 1 ≤ n) (ops : List (List ℕ × ℤ)) :
    1 ≤ (hashBuild n ops).size ∧
      10 * (hashBuild n ops).entries ≤ 7 * (hashBuild n ops).size + 10 := by
  induction ops using List.reverseRecOn with
  | nil => exact ⟨hn, by simp [hashBuild, hash_create]⟩
  | append_singleton ops wp ih =>
    rw [hashBuild_append]
    exact hash_insert_bound _ wp.1 wp.2 ih.1 ih.2

/-! ### The claims -/

/-- Claim C1, counterexample: inserting "cat" at position 2 twice into a
fresh trie and searching "cat" returns the occurrence list [2, 2]: the
inserted position appears twice, not exactly once, and the list is not
strictly ascending.  `trie_insert` appends each occurrence without a
duplicate check (trie.c line 200), so the claimed property fails for the
trie engine. -/
theorem C1_counterexample :
    trie_search (trie_insert (trie_insert trie_create_node w_cat 2) w_cat 2) w_cat
        = some [2, 2] ∧
      List.count (2 : ℤ) [2, 2] = 2 ∧
      ¬ List.Pairwise (· < ·) ([2, 2] : List ℤ) := by
  refine ⟨by decide, by decide, by decide⟩

/-- Claim C1, amended to the hash engine (where the property does hold):
after any sequence of insertions of NUL-free words, a successful
`hash_search` returns a strictly ascending list whose members are
exactly the positions ever inserted for a case-insensitively equal word;
strict ascent makes each such position occur exactly once.  The trie
engine instead appends occurrences in call order with no duplicate
check (see the counterexample). -/
theorem C1_amended_hash_search (n : ℕ) (hn : 1 ≤ n) (ops : List (List ℕ × ℤ))
    (hv : ∀ wp ∈ ops, ValidWord wp.1) (w : List ℕ) (hw : ValidWord w)
    (l : List ℤ) (hl : hash_search (hashBuild n ops) w = some l) :
    List.Chain' (· < ·) l ∧
      ∀ q : ℤ, q ∈ l ↔ ∃ w2, (w2, q) ∈ ops ∧ foldw w2 = foldw w := by
  obtain ⟨hwf, habs⟩ := hashBuild_wf_abs n hn ops hv
  rw [hash_search_eq_alookup hwf habs hw] at hl
  exact (mBuild_spec ops (foldw w)).1 l hl

/-- Claim C1, witness: the amended theorem applied to the single
insertion of "cat" at position 2 into a table of capacity 3. -/
theorem C1_amended_hash_search_witness :
    ((1 ≤ 3 ∧ (∀ wp ∈ ([(w_cat, 2)] : List (List ℕ × ℤ)), ValidWord wp.1) ∧
        ValidWord w_cat) ∧
      hash_search (hashBuild 3 [(w_cat, 2)]) w_cat = some [2]) ∧
      List.Chain' (· < ·) ([2] : List ℤ) ∧
      ∀ q : ℤ, q ∈ ([2] : List ℤ) ↔
        ∃ w2, (w2, q) ∈ ([(w_cat, 2)] : List (List ℕ × ℤ)) ∧ foldw w2 = foldw w_cat :=
  ⟨⟨⟨by decide, by decide, by decide⟩, by decide⟩,
    C1_amended_hash_search 3 (by decide) [(w_cat, 2)] (by decide) w_cat (by decide)
      [2] (by decide)⟩

/-- Claim C2: on every well-formed table `hash_resize` cannot fail: the
fresh table of capacity `2*size + 1` always has a free slot for each
reinserted entry (entries ≤ size < new capacity), so the probe never
wraps fully; the rollback branch of hash.c lines 100-109 is unreachable.
The successful resize doubles the capacity (plus one) and keeps the
entry count. -/
theorem C2_resize_never_fails (ht : HashTable) (hwf : WF ht) :
    ∃ ht2, hash_resize ht = some ht2 ∧ ht2.size = ht.size * 2 + 1 ∧
      ht2.entries = ht.entries := by
  obtain ⟨ht2, hres, _, hsz, hen, _⟩ := hash_resize_spec hwf
  exact ⟨ht2, hres, hsz, hen⟩

/-- Claim C2, witness: the theorem applied to the well-formed fresh
table of capacity 1. -/
theorem C2_resize_never_fails_witness :
    WF (hash_create 1) ∧
      ∃ ht2, hash_resize (hash_create 1) = some ht2 ∧
        ht2.size = (hash_create 1).size * 2 + 1 ∧
        ht2.entries = (hash_create 1).entries :=
  ⟨(hash_create_wf (le_refl 1)).1,
    C2_resize_never_fails (hash_create 1) (hash_create_wf (le_refl 1)).1⟩

/-- Claim C3, counterexample: after inserting the three distinct words
"the", "cat", "sat" into a table created with capacity 3, the table
holds `entries = 3` in `size = 3`: the load factor is 1, violating
`entries / size ≤ 0.7` (equivalently `10 * entries ≤ 7 * size`).  The
check `entries > size * 0.7` runs before an insertion, so the insertion
itself can push the load factor above 0.7. -/
theorem C3_counterexample :
    ¬ (10 * (hashBuild 3 [(w_the, 1), (w_cat, 2), (w_sat, 3)]).entries ≤
        7 * (hashBuild 3 [(w_the, 1), (w_cat, 2), (w_sat, 3)]).size) := by
  decide

/-- Claim C3, amended: the invariant that does hold after every
insertion sequence from `hash_create n` (n ≥ 1) is the pre-insertion
bound plus one element: `entries ≤ 0.7 * size + 1`, stated exactly as
`10 * entries ≤ 7 * size + 10`. -/
theorem C3_amended_load_bound (n : ℕ) (hn : 1 ≤ n) (ops : List (List ℕ × ℤ)) :
    10 * (hashBuild n ops).entries ≤ 7 * (hashBuild n ops).size + 10 :=
  (hashBuild_bound n hn ops).2

/-- Claim C3, witness: the amended bound at the counterexample's build. -/
theorem C3_amended_load_bound_witness :
    1 ≤ 3 ∧
      10 * (hashBuild 3 [(w_the, 1), (w_cat, 2), (w_sat, 3)]).entries ≤
        7 * (hashBuild 3 [(w_the, 1), (w_cat, 2), (w_sat, 3)]).size + 10 :=
  ⟨by decide, C3_amended_load_bound 3 (by decide) [(w_the, 1), (w_cat, 2), (w_sat, 3)]⟩

/-- Claim C4, counterexample: the accented letter à (UTF-8 bytes
195, 160) is in the claim's listed set but `normalize_utf8_char` has no
case for it: the character falls through to `tolower` of the lead byte
195, which is not a lowercase ASCII letter, so `char_index` rejects it
and a word consisting of à is skipped entirely — inserting it into a
fresh trie indexes nothing and searching it finds nothing. -/
theorem C4_counterexample :
    char_index w_agrave = none ∧
      normalize_utf8_char w_agrave = 195 ∧
      trie_search (trie_insert trie_create_node w_agrave 1) w_agrave = none := by
  refine ⟨by decide, by decide, by decide⟩

/-- Claim C4, amended: `normalize_utf8_char` handles exactly the nine
letter families Ç/ç→c, Ã/ã→a, Õ/õ→o, Á/á→a, É/é→e, Í/í→i, Ó/ó→o,
Ú/ú→u, Ü/ü→u (18 characters, each mapped to the child index of its base
letter), while the remaining 32 accented characters of the claimed set
(à, À, â, Â, ä, Ä, å, Å, è, È, ê, Ê, ë, Ë, ì, Ì, î, Î, ï, Ï, ñ, Ñ, ò, Ò,
ô, Ô, ö, Ö, ù, Ù, û, Û) are not normalized and are skipped. -/
theorem C4_amended_normalization :
    (∀ bi ∈ ([(135, 2), (167, 2), (131, 0), (163, 0), (149, 14), (181, 14),
        (129, 0), (161, 0), (137, 4), (169, 4), (141, 8), (173, 8),
        (147, 14), (179, 14), (154, 20), (186, 20), (156, 20), (188, 20)] :
          List (ℕ × ℕ)),
        (char_index [195, bi.1]).map Fin.val = some bi.2) ∧
      ∀ b ∈ ([128, 130, 132, 133, 136, 138, 139, 140, 142, 143, 145, 146,
          148, 150, 153, 155, 160, 162, 164, 165, 168, 170, 171, 172, 174,
          175, 177, 178, 180, 182, 185, 187] : List ℕ),
        char_index [195, b] = none := by
  refine ⟨by decide, by decide⟩

/-- Claim C5, counterexample: on the text "the cat sat on the mat" the
corpus-build mode `processar_texto` records for the word "the" the list
[0, 4] — the 0-based token indices — not the claimed 1-based positions
[1, 5]; in particular the claimed first position 1 is absent. -/
theorem C5_counterexample :
    (processar_texto sampleText).1.get? 0 = some w_the ∧
      (processar_texto sampleText).2.get? 0 = some [0, 4] ∧
      (1 : ℤ) ∉ ([0, 4] : List ℤ) := by
  refine ⟨by decide, by decide, by decide⟩

/-- Claim C5, amended: `tokenize_text` does assign each emitted token
the 1-based ordinal among emitted tokens as its position; but
`processar_texto` records for each token the strictly ascending list of
the 0-based indices of the tokens (case-insensitively) equal to it. -/
theorem C5_amended_positions (text : List ℕ) (i : ℕ) (wi : List ℕ)
    (hw : (processar_texto text).1.get? i = some wi) :
    ((tokenize_text text).map Prod.snd =
        List.range' 1 (tokenize_text text).length) ∧
      ∃ posl, (processar_texto text).2.get? i = some posl ∧
        List.Chain' (· < ·) posl ∧
        ∀ q : ℤ, q ∈ posl ↔ ∃ j : ℕ, q = (j : ℤ) ∧
          (processar_texto text).1.get? j = some wi :=
  ⟨tokenize_go_positions text [] 1, processar_spec text i wi hw⟩

/-- Claim C5, witness: the amended theorem applied to the sample text
and its first token "the". -/
theorem C5_amended_positions_witness :
    (processar_texto sampleText).1.get? 0 = some w_the ∧
      (((tokenize_text sampleText).map Prod.snd =
          List.range' 1 (tokenize_text sampleText).length) ∧
        ∃ posl, (processar_texto sampleText).2.get? 0 = some posl ∧
          List.Chain' (· < ·) posl ∧
          ∀ q : ℤ, q ∈ posl ↔ ∃ j : ℕ, q = (j : ℤ) ∧
            (processar_texto sampleText).1.get? j = some w_the) :=
  ⟨by decide, C5_amended_positions sampleText 0 w_the (by decide)⟩

/-- Claim C6, counterexample: `processar_texto` tokenizes with
`strtok_r` whose delimiter set contains the hyphen (the final character
of the delimiter string in util.c line 122), so the hyphenated word
"guarda-chuva" is split into the two tokens "guarda" and "chuva" there,
not kept whole. -/
theorem C6_counterexample :
    (processar_texto w_guardachuva).1 =
      [[103, 117, 97, 114, 100, 97], [99, 104, 117, 118, 97]] := by
  decide

/-- Claim C6, amended: in `tokenize_text` (trie.c) the hyphen is a word
character: every non-empty text consisting only of word characters —
hyphens included — is emitted as one single token at position 1.
`processar_texto` (util.c) instead treats the hyphen as a delimiter (see
the counterexample). -/
theorem C6_amended_hyphen (w : List ℕ) (hne : w ≠ [])
    (hall : ∀ b ∈ w, isWordChar b = true) :
    tokenize_text w = [(w, 1)] := by
  have h := tokenize_go_allword w [] 1 hall (by simpa using hne)
  rw [List.nil_append] at h
  exact h

/-- Claim C6, witness: the amended theorem applied to "guarda-chuva",
whose bytes are all word characters (the hyphen 45 included). -/
theorem C6_amended_hyphen_witness :
    (w_guardachuva ≠ [] ∧ (∀ b ∈ w_guardachuva, isWordChar b = true) ∧
        (45 : ℕ) ∈ w_guardachuva) ∧
      tokenize_text w_guardachuva = [(w_guardachuva, 1)] :=
  ⟨⟨by decide, by decide, by decide⟩,
    C6_amended_hyphen w_guardachuva (by decide) (by decide)⟩

/-- Claim C7, counterexample: the all-digit token "2024" is non-empty
(`should_include_word` accepts it and `tokenize_text` emits it), yet
after inserting it into a fresh trie a search returns nothing: digits
have no child index, every character of the word is skipped, the walk
never leaves the root, and `trie_insert`'s `current != root` guard
discards the insertion. -/
theorem C7_counterexample :
    should_include_word w_year = true ∧
      tokenize_text w_year = [(w_year, 1)] ∧
      trie_search (trie_insert trie_create_node w_year 1) w_year = none := by
  refine ⟨by decide, by decide, by decide⟩

/-- Claim C7, amended: in the hash engine every NUL-free word is
indexable: inserting it (after any prior valid insertions) and then
searching for it succeeds with a list containing the inserted
position.  The trie engine cannot index words whose characters all
normalize outside a-z and hyphen (see the counterexample). -/
theorem C7_amended_hash_indexable (n : ℕ) (hn : 1 ≤ n)
    (ops : List (List ℕ × ℤ)) (hv : ∀ wp ∈ ops, ValidWord wp.1)
    (w : List ℕ) (hw : ValidWord w) (p : ℤ) :
    ∃ l, hash_search (hashBuild n (ops ++ [(w, p)])) w = some l ∧ p ∈ l := by
  have hv2 : ∀ wp ∈ ops ++ [(w, p)], ValidWord wp.1 := by
    intro wp hwp
    rcases List.mem_append.mp hwp with h1 | h2
    · exact hv wp h1
    · have heq : wp = (w, p) := by simpa using h2
      rw [heq]
      exact hw
  obtain ⟨hwf, habs⟩ := hashBuild_wf_abs n hn (ops ++ [(w, p)]) hv2
  have hs := hash_search_eq_alookup hwf habs hw
  cases hl : alookup (foldw w) (mBuild (ops ++ [(w, p)])) with
  | none =>
    exfalso
    have hnone := (mBuild_spec (ops ++ [(w, p)]) (foldw w)).2 hl
    exact hnone w p (List.mem_append_right _ (by simp)) rfl
  | some l =>
    have hmem := ((mBuild_spec (ops ++ [(w, p)]) (foldw w)).1 l hl).2 p
    exact ⟨l, by rw [hs, hl],
      hmem.mpr ⟨w, List.mem_append_right _ (by simp), rfl⟩⟩

/-- Claim C7, witness: the amended theorem applied to inserting "2024"
at position 1 into a fresh table of capacity 3. -/
theorem C7_amended_hash_indexable_witness :
    (1 ≤ 3 ∧ ValidWord w_year) ∧
      ∃ l, hash_search (hashBuild 3 ([] ++ [(w_year, 1)])) w_year = some l ∧
        (1 : ℤ) ∈ l :=
  ⟨⟨by decide, by decide⟩,
    C7_amended_hash_indexable 3 (by decide) [] (by simp) w_year (by decide) 1⟩

/-- Claim C8: trie lookup folds accents and case, and the
first-inserted surface form wins: inserting "café" at position 3 and
then searching "CAFE" returns [3]; after a later insertion of "CAFÉ" at
position 7 on the same normalized path, searching "CAFE" returns [3, 7]
and the original surface form stored at the terminal node is still the
bytes of "café". -/
theorem C8_fold_first_wins :
    trie_search (trie_insert trie_create_node w_cafe 3) w_CAFE = some [3] ∧
      trie_search (trie_insert (trie_insert trie_create_node w_cafe 3) w_CAFEacc 7)
          w_CAFE = some [3, 7] ∧
      origAt (trie_insert (trie_insert trie_create_node w_cafe 3) w_CAFEacc 7)
          (idxPath w_cafe) = some w_cafe := by
  refine ⟨by decide, by decide, by decide⟩

/-- Claim C9: on the corpus ["the", "cat", "sat", "on", "the", "mat"]
with 1-based position lists and the keywords ["the", "dog"], both build
algorithms produce an index where "the" maps to exactly [1, 5] and
"dog" is not found. -/
theorem C9_example_corpus :
    (hash_search (criar_indice_hash corpusWords corpusPositions corpusKeywords)
        w_the = some [1, 5] ∧
      hash_search (criar_indice_hash corpusWords corpusPositions corpusKeywords)
        w_dog = none) ∧
      trie_search (criar_indice_trie corpusWords corpusPositions corpusKeywords)
        w_the = some [1, 5] ∧
      trie_search (criar_indice_trie corpusWords corpusPositions corpusKeywords)
        w_dog = none := by
  refine ⟨⟨by decide, by decide⟩, by decide, by decide⟩

/-- Claim C10: `trie_insert` with a negative position is a no-op — the
returned trie is the argument trie itself, so no node, flag, surface
form or occurrence changes — while `hash_insert` accepts a negative
position (here -1, as used for the keyword table) and stores it. -/
theorem C10_negative_position_noop (t : TrieNode) (w : List ℕ) (p : ℤ)
    (hp : p < 0) :
    trie_insert t w p = t ∧
      hash_search (hash_insert (hash_create 3) w_cat (-1)) w_cat = some [-1] :=
  ⟨trie_insert_neg t w hp, by decide⟩

/-- Claim C10, witness: the theorem applied to a fresh trie, the word
"cat" and position -1. -/
theorem C10_negative_position_noop_witness :
    (-1 : ℤ) < 0 ∧
      (trie_insert trie_create_node w_cat (-1) = trie_create_node ∧
        hash_search (hash_insert (hash_create 3) w_cat (-1)) w_cat = some [-1]) :=
  ⟨by decide, C10_negative_position_noop trie_create_node w_cat (-1) (by decide)⟩

end HashAndTrie
